import Mathlib

/-!
Verification development for the vue-router-next repository.

This file contains shallow embeddings of three parts of the code base and
theorems about them:

* the in-memory history collaborator (`createMemoryHistory`),
* the navigation controller (`router.ts`: `pushWithRedirect`, `navigate`,
  `finalizeNavigation`, `checkCanceledNavigation`, `runGuardQueue`,
  `extractChangingRecords`),
* the matcher registry (`createRouterMatcher`: `addRoute`, `removeRoute`,
  `insertMatcher`, `resolve`).

JavaScript arrays become `List`, object identity becomes explicit numeric
tags, promise chains become sequential state-passing functions, and the
unbounded recursions of the source (redirect chains, cascading removal)
become fuel-indexed functions.
-/

namespace MemHist

/-- Starting location for histories (`START` in `history/common`). -/
def HISTORY_START : String := ""

/-- State of the in-memory history: the entry queue and the current position.
The position is an `Int` because the source transiently decrements it below
zero inside `replace` before `setLocation` increments it again. -/
structure MemHistory where
  queue : List String
  position : Int
deriving DecidableEq

/-- Initial state of `createMemoryHistory`: `queue = [START]`, `position = 0`. -/
def init : MemHistory := ⟨[HISTORY_START], 0⟩

/-- `setLocation`: increment the position; append when at the end of the
queue, otherwise drop everything from the new position onward
(`queue.splice(position)`) and append. -/
def setLocation (h : MemHistory) (location : String) : MemHistory :=
  if h.position + 1 = (h.queue.length : Int) then
    { queue := h.queue ++ [location], position := h.position + 1 }
  else
    { queue := h.queue.take (h.position + 1).toNat ++ [location], position := h.position + 1 }

/-- `queue.splice(i, 1)`: remove the single entry at index `i`.  The source
only reaches this with `0 ≤ i`, so the clamping `toNat` is harmless. -/
def spliceOne (q : List String) (i : Int) : List String :=
  q.take i.toNat ++ q.drop (i.toNat + 1)

/-- `push(to)` simply calls `setLocation`. -/
def push (h : MemHistory) (target : String) : MemHistory := setLocation h target

/-- `replace(to)`: remove the current entry, decrement the position, then
`setLocation`. -/
def replace (h : MemHistory) (target : String) : MemHistory :=
  setLocation { queue := spliceOne h.queue h.position, position := h.position - 1 } target

/-- `go(delta)`: clamp the new position into `[0, queue.length - 1]`
(`Math.max(0, Math.min(position + delta, queue.length - 1))`).  Listener
triggering carries no state and is omitted. -/
def go (h : MemHistory) (delta : Int) : MemHistory :=
  { h with position := max 0 (min (h.position + delta) ((h.queue.length : Int) - 1)) }

/-- The `location` getter: `queue[position]`. -/
def location (h : MemHistory) : String := h.queue.getD h.position.toNat HISTORY_START

/-- The operations a caller can perform on the memory history. -/
inductive MemOp where
  | push (target : String)
  | replace (target : String)
  | go (delta : Int)
deriving DecidableEq

def applyOp (h : MemHistory) : MemOp → MemHistory
  | .push t => push h t
  | .replace t => replace h t
  | .go delta => go h delta

def run (ops : List MemOp) : MemHistory := ops.foldl applyOp init

/-- The position invariant of the memory history. -/
def Inv (h : MemHistory) : Prop :=
  0 ≤ h.position ∧ h.position < (h.queue.length : Int)

theorem inv_init : Inv init := by
  constructor <;> simp [init]

theorem inv_setLocation (h : MemHistory) (h0 : 0 ≤ h.position + 1)
    (hle : h.position + 1 ≤ (h.queue.length : Int)) (loc : String) :
    Inv (setLocation h loc) := by
  unfold setLocation
  split
  · rename_i hc
    dsimp only [Inv]
    simp only [List.length_append, List.length_singleton]
    omega
  · rename_i hc
    dsimp only [Inv]
    simp only [List.length_append, List.length_take, List.length_singleton]
    omega

theorem inv_push (h : MemHistory) (hinv : Inv h) (loc : String) : Inv (push h loc) := by
  rcases hinv with ⟨h0, h1⟩
  exact inv_setLocation h (by omega) (by omega) loc

theorem inv_replace (h : MemHistory) (hinv : Inv h) (loc : String) : Inv (replace h loc) := by
  rcases hinv with ⟨h0, h1⟩
  apply inv_setLocation
  · simp
    omega
  · simp only [spliceOne, List.length_append, List.length_take, List.length_drop]
    omega

theorem inv_go (h : MemHistory) (hinv : Inv h) (delta : Int) : Inv (go h delta) := by
  rcases hinv with ⟨h0, h1⟩
  constructor
  · simp [go]
  · simp only [go]
    omega

theorem inv_applyOp (h : MemHistory) (hinv : Inv h) (op : MemOp) : Inv (applyOp h op) := by
  cases op with
  | push t => exact inv_push h hinv t
  | replace t => exact inv_replace h hinv t
  | go delta => exact inv_go h hinv delta

theorem inv_run (ops : List MemOp) : Inv (run ops) := by
  suffices hgen : ∀ h, Inv h → Inv (ops.foldl applyOp h) from hgen init inv_init
  induction ops with
  | nil => intro h hi; exact hi
  | cons op ops ih => intro h hi; exact ih _ (inv_applyOp h hi op)

theorem location_eq_entry (h : MemHistory) (hinv : Inv h) :
    h.queue[h.position.toNat]? = some (location h) := by
  rcases hinv with ⟨h0, h1⟩
  have hlt : h.position.toNat < h.queue.length := by omega
  simp [location, List.getD, List.getElem?_eq_getElem hlt]

theorem push_discards_forward (h : MemHistory) (hinv : Inv h) (t : String) :
    (push h t).queue = h.queue.take (h.position.toNat + 1) ++ [t] ∧
      (push h t).position = h.position + 1 := by
  rcases hinv with ⟨h0, h1⟩
  simp only [push, setLocation]
  split
  · rename_i heq
    refine ⟨?_, rfl⟩
    have hh : h.position.toNat + 1 = h.queue.length := by omega
    rw [hh, List.take_length]
  · refine ⟨?_, rfl⟩
    have hh : (h.position + 1).toNat = h.position.toNat + 1 := by omega
    rw [hh]

/-- C10: after any sequence of `push`, `replace` and `go` calls on the
in-memory history, the position stays inside the queue (`go` clamps
out-of-range deltas), the reported `location` is the queue entry at the
position, and a `push` performed anywhere in the queue keeps exactly the
entries up to the current position and appends the new entry (discarding
every forward entry). -/
theorem c10_memory_history_invariants (ops : List MemOp) :
    0 ≤ (run ops).position ∧
      (run ops).position < ((run ops).queue.length : Int) ∧
      (run ops).queue[(run ops).position.toNat]? = some (location (run ops)) ∧
      ∀ t : String,
        (push (run ops) t).queue =
            (run ops).queue.take ((run ops).position.toNat + 1) ++ [t] ∧
          (push (run ops) t).position = (run ops).position + 1 := by
  have hinv := inv_run ops
  exact ⟨hinv.1, hinv.2, location_eq_entry _ hinv, fun t => push_discards_forward _ hinv t⟩

end MemHist

namespace Ctrl

/-- Navigation failure kinds (`ErrorTypes` in `errors.ts`, which the router
imports): aborted, cancelled and duplicated failures, the internal
guard-redirect signal, plus unexpected guard errors. -/
inductive Fail where
  | aborted
  | cancelled
  | duplicated
  | guardRedirect (target : Nat)
  | unexpected
deriving DecidableEq

/-- Observable side effects of the navigation controller, in the order they
are performed: a guard invocation, a history `push`/`replace` (tagged with
the identity of the persisted location), the scroll-behavior hook
(`handleScroll`), an `afterEach` notification carrying the failure value,
and the replacement of `currentRoute.value`. -/
inductive Ev where
  | guardRun (g : Nat)
  | histPush (lid : Nat)
  | histReplace (lid : Nat)
  | scroll
  | afterEach (failure : Option Fail)
  | setCurrent (lid : Nat)
deriving DecidableEq

/-- Modelled from the spec: the guard function contract.  A guard settles
with one of four signals: allow continuation, refuse (`false` →
`NAVIGATION_ABORTED`), request a redirect (a location → the internal
`NAVIGATION_GUARD_REDIRECT` signal), or raise an unexpected error.
`guardToPromiseFn` (in the missing `navigationGuards.ts`) converts these
signals into promise resolutions/rejections; here a guard's behavior is a
function of its id and of the number of guards settled so far. -/
inductive GOutcome where
  | allow
  | abort
  | redirect (target : Nat)
  | raise
deriving DecidableEq

/-- A normalized route record as the controller sees it: an identity tag
(JavaScript object identity), the per-phase guard lists, and the optional
record-level redirect.  `componentLeave`/`componentUpdate`/`componentEnter`
stand for the guards `extractComponentsGuards` collects from the record's
view components (option-declared `beforeRouteLeave` / `beforeRouteUpdate` /
`beforeRouteEnter`); `leaveGuards`/`updateGuards`/`beforeEnter` are the
record's own guard lists. -/
structure RecM where
  rid : Nat
  componentLeave : List Nat := []
  leaveGuards : List Nat := []
  componentUpdate : List Nat := []
  updateGuards : List Nat := []
  beforeEnter : List Nat := []
  componentEnter : List Nat := []
  redirect : Option Nat := none
deriving DecidableEq

/-- `list.indexOf(record) > -1`: membership by object identity, modelled by
the `rid` tag. -/
def memRec (r : RecM) (l : List RecM) : Bool := l.any (fun x => x.rid == r.rid)

/-- A resolved location: its object identity (`lid`, fresh per resolution),
a value-equality key (two locations are `isSameRouteLocation`-equal exactly
when their keys agree), and the matched record chain. -/
structure LocM where
  lid : Nat
  key : Nat
  matched : List RecM
deriving DecidableEq

/-- `START_LOCATION_NORMALIZED`: the fixed initial location; identity tag 0
is reserved for it. -/
def START_LOCATION : LocM := { lid := 0, key := 0, matched := [] }

/-- The environment of a navigation: the registered global guards, each
guard's behavior, the resolver (as a map from raw navigation requests to
value key and matched chain), the per-request `force`/`replace` options,
and the schedule of a competing navigation: `interrupt = some (k, l)` means
that immediately after the `k`-th guard settles, a newer navigation
overwrites `pendingLocation` with the location whose identity is `l`. -/
structure Env where
  beforeEachList : List Nat
  beforeResolveList : List Nat
  gb : Nat → Nat → GOutcome
  rawKey : Nat → Nat
  rawMatched : Nat → List RecM
  rawForce : Nat → Bool
  rawReplace : Nat → Bool
  interrupt : Option (Nat × Nat)

/-- Mutable state owned by the router closure: `pendingLocation` (stored as
an identity tag), `currentRoute.value`, the identity allocator for resolved
locations, the count of guards settled so far, and the observable event
trace. -/
structure CState where
  pending : Nat
  current : LocM
  nextLid : Nat
  steps : Nat
  events : List Ev
deriving DecidableEq

def emit (s : CState) (e : Ev) : CState := { s with events := s.events ++ [e] }

/-- `resolve(to)`: produces a fresh location object (fresh identity) whose
value content is given by the environment. -/
def resolveLoc (env : Env) (raw : Nat) (s : CState) : LocM × CState :=
  ({ lid := s.nextLid, key := env.rawKey raw, matched := env.rawMatched raw },
   { s with nextLid := s.nextLid + 1 })

/-- `checkCanceledNavigation`: if `pendingLocation !== to` (identity
comparison) the navigation is stale and fails with
`NAVIGATION_CANCELLED`. -/
def checkCanceledNavigation (s : CState) (target : LocM) : Option Fail :=
  if s.pending ≠ target.lid then some .cancelled else none

/-- Modelled from the spec: `isSameRouteLocation` (in the missing
`location.ts`) compares path, query (under the configured query-equality
rule) and hash; that value equality is abstracted into the `key` field. -/
def isSameRouteLocation (a b : LocM) : Bool := a.key == b.key

/-- One step of the loop in `extractChangingRecords`: index `i` of both
matched lists, classifying `from.matched[i]` as leaving/updating and
`to.matched[i]` as entering. -/
def ecrGo (toM fromM : List RecM) : Nat → Nat → List RecM × List RecM × List RecM
  | _, 0 => ([], [], [])
  | i, fuel+1 =>
    let rest := ecrGo toM fromM (i+1) fuel
    let ls := match fromM[i]? with
      | some r => if ¬ memRec r toM then r :: rest.1 else rest.1
      | none => rest.1
    let us := match fromM[i]? with
      | some r => if memRec r toM then r :: rest.2.1 else rest.2.1
      | none => rest.2.1
    let es := match toM[i]? with
      | some r => if ¬ memRec r fromM then r :: rest.2.2 else rest.2.2
      | none => rest.2.2
    (ls, us, es)

/-- `extractChangingRecords(to, from)`: walk both matched chains index by
index (root to leaf), producing leaving, updating and entering records. -/
def extractChangingRecords (toLoc fromLoc : LocM) :
    List RecM × List RecM × List RecM :=
  ecrGo toLoc.matched fromLoc.matched 0 (max toLoc.matched.length fromLoc.matched.length)

/-- An item of a guard queue: a wrapped guard, or the
`checkCanceledNavigationAndReject` thunk the source pushes at the end of
each phase's queue. -/
inductive QItem where
  | guard (g : Nat)
  | check
deriving DecidableEq

/-- A guard has settled: bump the settled-guard counter, and if the
competing navigation is scheduled at this point, it overwrites
`pendingLocation` now (its `push` ran while this guard was awaited). -/
def settleGuard (env : Env) (s : CState) : CState :=
  let st := s.steps + 1
  { s with
    steps := st,
    pending := match env.interrupt with
      | some (k, l) => if st = k then l else s.pending
      | none => s.pending }

/-- `runGuardQueue`: reduce the queue into a sequential promise chain; each
guard runs only after the previous one settled, and a rejection
short-circuits the rest.  The `check` item is
`checkCanceledNavigationAndReject` bound to this navigation's target. -/
def runGuardQueue (env : Env) (toLoc : LocM) : List QItem → CState → CState × Option Fail
  | [], s => (s, none)
  | .guard g :: rest, s =>
    let s := emit s (.guardRun g)
    match env.gb g s.steps with
    | .allow => runGuardQueue env toLoc rest (settleGuard env s)
    | .abort => (settleGuard env s, some .aborted)
    | .redirect r => (settleGuard env s, some (.guardRedirect r))
    | .raise => (settleGuard env s, some .unexpected)
  | .check :: rest, s =>
    if s.pending = toLoc.lid then runGuardQueue env toLoc rest s
    else (s, some .cancelled)

/-- The six guard-phase queues `navigate` builds, in execution order:

1. component `beforeRouteLeave` guards of the records left (collected over
   `from.matched.filter(not in to.matched).reverse()`, i.e. leaf to root),
   then the registered `leaveGuards` of the leaving records in the order
   `extractChangingRecords` produced them (root to leaf);
2. global `beforeEach` guards in registration order;
3. component `beforeRouteUpdate` guards of the reused records
   (`to.matched` order) then registered `updateGuards` of the updating
   records;
4. record `beforeEnter` guards of records in `to.matched` that are not in
   `from.matched`, in `to.matched` (root to leaf) order;
5. component `beforeRouteEnter` guards of the newly entered records;
6. global `beforeResolve` guards in registration order.

(The source also clears `record.enterCallbacks` before phase 5; those
callbacks belong to the view collaborator and carry no state here.) -/
def phaseGuardLists (env : Env) (toLoc fromLoc : LocM) : List (List Nat) :=
  let changing := extractChangingRecords toLoc fromLoc
  let leavingRecords := changing.1
  let updatingRecords := changing.2.1
  [ ((fromLoc.matched.filter (fun r => ¬ memRec r toLoc.matched)).reverse.flatMap
        (fun r => r.componentLeave))
      ++ leavingRecords.flatMap (fun r => r.leaveGuards),
    env.beforeEachList,
    (toLoc.matched.filter (fun r => memRec r fromLoc.matched)).flatMap
        (fun r => r.componentUpdate)
      ++ updatingRecords.flatMap (fun r => r.updateGuards),
    toLoc.matched.flatMap
      (fun r => if ¬ memRec r fromLoc.matched then r.beforeEnter else []),
    (toLoc.matched.filter (fun r => ¬ memRec r fromLoc.matched)).flatMap
      (fun r => r.componentEnter),
    env.beforeResolveList ]

/-- A phase's queue: its guards followed by the cancellation check the
source pushes at the end (`guards.push(canceledNavigationCheck)`). -/
def toQueue (gs : List Nat) : List QItem := gs.map .guard ++ [.check]

/-- The `.then`-chain of `navigate`: run each phase's queue in order; a
failure short-circuits the remaining phases. -/
def runPhases (env : Env) (toLoc : LocM) : List (List Nat) → CState → CState × Option Fail
  | [], s => (s, none)
  | p :: ps, s =>
    match runGuardQueue env toLoc (toQueue p) s with
    | (s1, none) => runPhases env toLoc ps s1
    | (s1, some f) => (s1, some f)

/-- `navigate(to, from)`: run the six guard phases.  (The source's final
`catch` resolves a `NAVIGATION_CANCELLED` rejection into a resolved failure
value; `pushWithRedirect` below treats resolved failure values and caught
cancellations identically, so the failure is simply returned here.) -/
def navigate (env : Env) (toLoc fromLoc : LocM) (s : CState) : CState × Option Fail :=
  runPhases env toLoc (phaseGuardLists env toLoc fromLoc) s

/-- Total number of guard invocations a full run of `navigate` performs. -/
def totalGuards (env : Env) (toLoc fromLoc : LocM) : Nat :=
  ((phaseGuardLists env toLoc fromLoc).map List.length).sum

/-- `finalizeNavigation`: refuse to run if a more recent navigation took
place (`checkCanceledNavigation`), otherwise persist the URL (a `replace`
when requested or on the very first navigation, a `push` otherwise), accept
the target as the current location, and invoke the scroll hook.  (The
clearing of the leaving records' guard lists mutates record objects only
and is not observable in a single navigation.) -/
def finalizeNavigation (_env : Env) (toLoc fromLoc : LocM)
    (isPush replaceFlag : Bool) (s : CState) : CState × Option Fail :=
  match checkCanceledNavigation s toLoc with
  | some e => (s, some e)
  | none =>
    let isFirstNavigation := fromLoc.lid = START_LOCATION.lid
    let s := if isPush then
        if replaceFlag ∨ isFirstNavigation then emit s (.histReplace toLoc.lid)
        else emit s (.histPush toLoc.lid)
      else s
    let s := { emit s (.setCurrent toLoc.lid) with current := toLoc }
    let s := emit s .scroll
    (s, none)

def triggerAfterEach (s : CState) (failure : Option Fail) : CState :=
  emit s (.afterEach failure)

/-- How a navigation call settles: with a failure value (or none on
success), with a rejection (unexpected error via `triggerError`, or the
dev-mode `Infinite redirect in navigation guard` error), or — a modelling
artifact — by running out of recursion fuel, which means the source would
still be recursing at that depth. -/
inductive Outcome where
  | settled (failure : Option Fail)
  | rejectedUnexpected
  | rejectedInfinite
  | fuelOut
deriving DecidableEq

/-- The `redirectedFrom` argument: the identity of the original request and
its `_count` property (the redirect counter the dev-mode check mutates on
that shared object). -/
structure RFrom where
  lid : Nat
  count : Nat
deriving DecidableEq

/-- `pushWithRedirect(to, redirectedFrom)`.  `opts` carries the
`force`/`replace` options a redirect inherits from the original call
(`assign(newTargetLocation, { state, force, replace })`); the entry call
passes `none` and reads them off the raw request.  Fuel bounds the redirect
recursion, which is unbounded in the source. -/
def pushWithRedirect (env : Env) :
    Nat → Nat → Option (Bool × Bool) → Option RFrom → CState → CState × Outcome
  | 0, _, _, _, s => (s, .fuelOut)
  | fuel+1, raw, opts, redirectedFrom, s =>
    let rs := resolveLoc env raw s
    let targetLocation := rs.1
    let s := { rs.2 with pending := targetLocation.lid }
    let fromLoc := s.current
    let force := (opts.map Prod.fst).getD (env.rawForce raw)
    let replaceFlag := (opts.map Prod.snd).getD (env.rawReplace raw)
    match targetLocation.matched.getLast?.bind (fun r => r.redirect) with
    | some r =>
      pushWithRedirect env fuel r (some (force, replaceFlag))
        (some (redirectedFrom.getD { lid := targetLocation.lid, count := 0 })) s
    | none =>
      if ¬ force ∧ isSameRouteLocation fromLoc targetLocation then
        let s := emit s .scroll
        let s := triggerAfterEach s (some .duplicated)
        (s, .settled (some .duplicated))
      else
        let nv := navigate env targetLocation fromLoc s
        let s := nv.1
        match nv.2 with
        | none =>
          let fz := finalizeNavigation env targetLocation fromLoc true replaceFlag s
          let s := triggerAfterEach fz.1 fz.2
          (s, .settled fz.2)
        | some .unexpected => (s, .rejectedUnexpected)
        | some (.guardRedirect r) =>
          match redirectedFrom with
          | some rf =>
            if env.rawKey r == targetLocation.key then
              if rf.count + 1 > 10 then (s, .rejectedInfinite)
              else
                pushWithRedirect env fuel r (some (force, replaceFlag))
                  (some { lid := rf.lid, count := rf.count + 1 }) s
            else
              pushWithRedirect env fuel r (some (force, replaceFlag)) (some rf) s
          | none =>
            pushWithRedirect env fuel r (some (force, replaceFlag))
              (some { lid := targetLocation.lid, count := 0 }) s
        | some f =>
          let s := triggerAfterEach s (some f)
          (s, .settled (some f))

end Ctrl

namespace Ctrl

/-- Every guard allows continuation. -/
def allowAll (env : Env) : Prop := ∀ g st, env.gb g st = GOutcome.allow

/-- The competing navigation (if any) has already overwritten the pending
token: the interrupt point lies at or before the current settled count, so
no future guard settlement changes `pending` again. -/
def noFire (env : Env) (s : CState) : Prop :=
  ∀ k l, env.interrupt = some (k, l) → k ≤ s.steps

theorem settleGuard_noFire (env : Env) (s : CState) (hnf : noFire env s) :
    settleGuard env s = { s with steps := s.steps + 1 } := by
  unfold settleGuard
  match hIntr : env.interrupt with
  | none => rfl
  | some (k, l) =>
    have hk := hnf k l hIntr
    simp only
    rw [if_neg (by omega)]

theorem noFire_of_steps (env : Env) (s s2 : CState) (hnf : noFire env s)
    (h : s.steps ≤ s2.steps) : noFire env s2 := by
  intro k l hkl
  exact le_trans (hnf k l hkl) h

/-- Running a phase queue whose guards all allow, with no pending-token
change left to happen: every guard runs in order, the end-of-phase check
passes, and only `guardRun` events are emitted. -/
theorem runGuardQueue_clean (env : Env) (toLoc : LocM) (hAllow : allowAll env) :
    ∀ (gs : List Nat) (s : CState), s.pending = toLoc.lid → noFire env s →
      runGuardQueue env toLoc (toQueue gs) s =
        ({ s with steps := s.steps + gs.length, events := s.events ++ gs.map Ev.guardRun },
          none) := by
  intro gs
  induction gs with
  | nil =>
    intro s hp hnf
    show runGuardQueue env toLoc [QItem.check] s = _
    rw [show runGuardQueue env toLoc [QItem.check] s =
        (if s.pending = toLoc.lid then runGuardQueue env toLoc [] s
         else (s, some Fail.cancelled)) from rfl]
    rw [if_pos hp]
    show (s, none) = _
    simp
  | cons g gs ih =>
    intro s hp hnf
    have hstep : settleGuard env (emit s (Ev.guardRun g)) =
        { s with steps := s.steps + 1, events := s.events ++ [Ev.guardRun g] } := by
      rw [settleGuard_noFire]
      · rfl
      · intro k l hkl
        exact hnf k l hkl
    show runGuardQueue env toLoc (QItem.guard g :: toQueue gs) s = _
    rw [show runGuardQueue env toLoc (QItem.guard g :: toQueue gs) s =
        (match env.gb g (emit s (Ev.guardRun g)).steps with
         | .allow => runGuardQueue env toLoc (toQueue gs)
             (settleGuard env (emit s (Ev.guardRun g)))
         | .abort => (settleGuard env (emit s (Ev.guardRun g)), some Fail.aborted)
         | .redirect r => (settleGuard env (emit s (Ev.guardRun g)),
             some (Fail.guardRedirect r))
         | .raise => (settleGuard env (emit s (Ev.guardRun g)), some Fail.unexpected))
        from rfl]
    rw [hAllow g]
    rw [hstep]
    rw [ih { s with steps := s.steps + 1, events := s.events ++ [Ev.guardRun g] } (by simp [hp])
        (noFire_of_steps env s _ hnf (by simp))]
    have hx2 : s.steps + (g :: gs).length = s.steps + 1 + gs.length := by
      simp only [List.length_cons]
      omega
    rw [hx2]
    simp [List.append_assoc]

/-- Running a phase queue whose guards all allow, when the competing
navigation's token overwrite is scheduled at settlement `k`: the whole
phase still runs, and the end-of-phase check fails with `Cancelled` exactly
when the overwrite happened at or before the end of the phase. -/
theorem runGuardQueue_fire (env : Env) (toLoc : LocM) (k bl : Nat)
    (hAllow : allowAll env) (hIntr : env.interrupt = some (k, bl)) :
    ∀ (gs : List Nat) (s : CState),
      s.pending = (if k ≤ s.steps then bl else toLoc.lid) →
      runGuardQueue env toLoc (toQueue gs) s =
        ({ s with steps := s.steps + gs.length,
                  pending := if k ≤ s.steps + gs.length then bl else toLoc.lid,
                  events := s.events ++ gs.map Ev.guardRun },
          if (if k ≤ s.steps + gs.length then bl else toLoc.lid) = toLoc.lid then none
          else some Fail.cancelled) := by
  intro gs
  induction gs with
  | nil =>
    intro s hp
    show runGuardQueue env toLoc [QItem.check] s = _
    rw [show runGuardQueue env toLoc [QItem.check] s =
        (if s.pending = toLoc.lid then runGuardQueue env toLoc [] s
         else (s, some Fail.cancelled)) from rfl]
    by_cases hc : (if k ≤ s.steps then bl else toLoc.lid) = toLoc.lid
    · rw [if_pos (hp.trans hc)]
      show (s, none) = _
      simp only [List.length_nil, Nat.add_zero, List.map_nil, List.append_nil]
      rw [if_pos hc]
      conv_rhs => rw [← hp]
    · rw [if_neg (fun hx => hc (hp.symm.trans hx))]
      simp only [List.length_nil, Nat.add_zero, List.map_nil, List.append_nil]
      rw [if_neg hc]
      conv_rhs => rw [← hp]
  | cons g gs ih =>
    intro s hp
    have hstep : settleGuard env (emit s (Ev.guardRun g)) =
        { s with steps := s.steps + 1,
                 pending := if k ≤ s.steps + 1 then bl else toLoc.lid,
                 events := s.events ++ [Ev.guardRun g] } := by
      unfold settleGuard emit
      rw [hIntr]
      simp only [CState.mk.injEq, and_true, true_and]
      rw [hp]
      split_ifs <;> omega
    show runGuardQueue env toLoc (QItem.guard g :: toQueue gs) s = _
    rw [show runGuardQueue env toLoc (QItem.guard g :: toQueue gs) s =
        (match env.gb g (emit s (Ev.guardRun g)).steps with
         | .allow => runGuardQueue env toLoc (toQueue gs)
             (settleGuard env (emit s (Ev.guardRun g)))
         | .abort => (settleGuard env (emit s (Ev.guardRun g)), some Fail.aborted)
         | .redirect r => (settleGuard env (emit s (Ev.guardRun g)),
             some (Fail.guardRedirect r))
         | .raise => (settleGuard env (emit s (Ev.guardRun g)), some Fail.unexpected))
        from rfl]
    rw [hAllow g]
    rw [hstep]
    rw [ih { s with steps := s.steps + 1,
                    pending := if k ≤ s.steps + 1 then bl else toLoc.lid,
                    events := s.events ++ [Ev.guardRun g] } (by simp)]
    have hx2 : s.steps + (g :: gs).length = s.steps + 1 + gs.length := by
      simp only [List.length_cons]
      omega
    rw [hx2]
    simp [List.append_assoc]

end Ctrl

namespace Ctrl

/-- The prefix of the phase list a cancelled navigation still executes:
every phase up to and including the one during which the token overwrite
(at settlement `k`, counting from `c` guards already settled) happens. -/
def cutPhases (k : Nat) : Nat → List (List Nat) → List (List Nat)
  | _, [] => []
  | c, p :: ps => if k ≤ c + p.length then [p] else p :: cutPhases k (c + p.length) ps

theorem cutPhases_sum_ge (k : Nat) :
    ∀ (pss : List (List Nat)) (c : Nat), c < k → k ≤ c + (pss.map List.length).sum →
      k ≤ c + ((cutPhases k c pss).map List.length).sum := by
  intro pss
  induction pss with
  | nil =>
    intro c hck hk
    simp at hk
    omega
  | cons p ps ih =>
    intro c hck hk
    unfold cutPhases
    by_cases hc : k ≤ c + p.length
    · rw [if_pos hc]
      simpa using hc
    · rw [if_neg hc]
      have := ih (c + p.length) (by omega) (by simp at hk ⊢; omega)
      simp at this ⊢
      omega

/-- A full clean run of the phase chain: every phase executes, every check
passes. -/
theorem runPhases_clean (env : Env) (toLoc : LocM) (hAllow : allowAll env) :
    ∀ (pss : List (List Nat)) (s : CState), s.pending = toLoc.lid → noFire env s →
      runPhases env toLoc pss s =
        ({ s with steps := s.steps + (pss.map List.length).sum,
                  events := s.events ++ pss.flatten.map Ev.guardRun }, none) := by
  intro pss
  induction pss with
  | nil =>
    intro s hp hnf
    show (s, none) = _
    simp
  | cons p ps ih =>
    intro s hp hnf
    show (match runGuardQueue env toLoc (toQueue p) s with
          | (s1, none) => runPhases env toLoc ps s1
          | (s1, some f) => (s1, some f)) = _
    rw [runGuardQueue_clean env toLoc hAllow p s hp hnf]
    dsimp only
    rw [ih _ (by simp [hp]) (noFire_of_steps env s _ hnf (by simp))]
    have hx : s.steps + (List.map List.length (p :: ps)).sum
        = s.steps + p.length + (List.map List.length ps).sum := by
      simp
      omega
    rw [hx]
    simp [List.append_assoc]

/-- A run of the phase chain during which the token overwrite fires (at
settlement `k`, with a foreign token): the phases up to and including the
interrupted one run completely, the check at the end of that phase fails
with `Cancelled`, and no later phase's guard runs. -/
theorem runPhases_cancel (env : Env) (toLoc : LocM) (k bl : Nat)
    (hAllow : allowAll env) (hIntr : env.interrupt = some (k, bl))
    (hbl : bl ≠ toLoc.lid) :
    ∀ (pss : List (List Nat)) (s : CState),
      s.pending = toLoc.lid → s.steps < k →
      k ≤ s.steps + (pss.map List.length).sum →
      runPhases env toLoc pss s =
        ({ s with steps := s.steps + ((cutPhases k s.steps pss).map List.length).sum,
                  pending := bl,
                  events := s.events ++ (cutPhases k s.steps pss).flatten.map Ev.guardRun },
          some Fail.cancelled) := by
  intro pss
  induction pss with
  | nil =>
    intro s hp hck hk
    simp at hk
    omega
  | cons p ps ih =>
    intro s hp hck hk
    show (match runGuardQueue env toLoc (toQueue p) s with
          | (s1, none) => runPhases env toLoc ps s1
          | (s1, some f) => (s1, some f)) = _
    rw [runGuardQueue_fire env toLoc k bl hAllow hIntr p s (by rw [hp, if_neg (by omega)])]
    by_cases hc : k ≤ s.steps + p.length
    · rw [if_pos hc, if_neg (by simpa using hbl)]
      dsimp only
      unfold cutPhases
      rw [if_pos hc]
      simp
    · rw [if_neg hc, if_pos rfl]
      dsimp only
      have hih := ih ⟨toLoc.lid, s.current, s.nextLid, s.steps + p.length,
          s.events ++ p.map Ev.guardRun⟩ rfl
        (by show s.steps + p.length < k; omega)
        (by show k ≤ s.steps + p.length + (List.map List.length ps).sum
            simp at hk
            omega)
      rw [hih]
      conv_rhs => unfold cutPhases
      rw [if_neg hc]
      have hx : s.steps + (List.map List.length
            (p :: cutPhases k (s.steps + p.length) ps)).sum
          = s.steps + p.length
            + (List.map List.length (cutPhases k (s.steps + p.length) ps)).sum := by
        simp
        omega
      rw [hx]
      simp [List.append_assoc]

end Ctrl

namespace Ctrl

/-- A navigation whose guards all allow but whose pending token is
overwritten by a competing navigation at settlement `k` (within its guard
phases): it settles with the `Cancelled` failure value, skips
`finalizeNavigation` entirely — no history `push`/`replace`, no
`currentRoute` change — and notifies `afterEach` with the failure. -/
theorem pushWithRedirect_cancel (env : Env) (raw : Nat) (s0 : CState) (k bl fuel : Nat)
    (hAllow : allowAll env) (hIntr : env.interrupt = some (k, bl))
    (hbl : bl ≠ s0.nextLid) (hk0 : s0.steps < k)
    (hk : k ≤ s0.steps +
      totalGuards env ⟨s0.nextLid, env.rawKey raw, env.rawMatched raw⟩ s0.current)
    (hredir : (env.rawMatched raw).getLast?.bind (fun r => r.redirect) = none)
    (hdup : env.rawKey raw ≠ s0.current.key)
    (hfuel : 1 ≤ fuel) :
    pushWithRedirect env fuel raw none none s0 =
      ({ s0 with
          pending := bl,
          nextLid := s0.nextLid + 1,
          steps := s0.steps + ((cutPhases k s0.steps (phaseGuardLists env
            ⟨s0.nextLid, env.rawKey raw, env.rawMatched raw⟩ s0.current)).map
              List.length).sum,
          events := s0.events
            ++ ((cutPhases k s0.steps (phaseGuardLists env
              ⟨s0.nextLid, env.rawKey raw, env.rawMatched raw⟩
                s0.current)).flatten.map Ev.guardRun
            ++ [Ev.afterEach (some Fail.cancelled)]) },
        Outcome.settled (some Fail.cancelled)) := by
  obtain ⟨f, rfl⟩ : ∃ f, fuel = f + 1 := ⟨fuel - 1, by omega⟩
  simp only [pushWithRedirect, resolveLoc]
  rw [hredir]
  have hsame : isSameRouteLocation s0.current
      ⟨s0.nextLid, env.rawKey raw, env.rawMatched raw⟩ = false := by
    simp only [isSameRouteLocation, beq_eq_false_iff_ne, ne_eq]
    exact fun h => hdup h.symm
  simp only [hsame, Option.map_none, Option.getD_none, Bool.false_eq_true, and_false,
    if_false, ite_false]
  have hnav := runPhases_cancel env ⟨s0.nextLid, env.rawKey raw, env.rawMatched raw⟩ k bl
    hAllow hIntr hbl
    (phaseGuardLists env ⟨s0.nextLid, env.rawKey raw, env.rawMatched raw⟩ s0.current)
    { s0 with pending := s0.nextLid, nextLid := s0.nextLid + 1 }
    rfl hk0 hk
  unfold navigate
  rw [hnav]
  dsimp only [triggerAfterEach, emit]
  simp [List.append_assoc]

/-- A navigation whose guards all allow with no competing navigation left to
fire: every phase runs, `finalizeNavigation` persists the target with a
history `push` (when `replace` was not requested and this is not the very
first navigation), the target becomes current, the scroll hook runs and
`afterEach` fires with no failure. -/
theorem pushWithRedirect_clean (env : Env) (raw : Nat) (s0 : CState) (fuel : Nat)
    (hAllow : allowAll env) (hnf : noFire env s0)
    (hredir : (env.rawMatched raw).getLast?.bind (fun r => r.redirect) = none)
    (hdup : env.rawKey raw ≠ s0.current.key)
    (hrep : env.rawReplace raw = false)
    (hfirst : s0.current.lid ≠ START_LOCATION.lid)
    (hfuel : 1 ≤ fuel) :
    pushWithRedirect env fuel raw none none s0 =
      ({ s0 with
          pending := s0.nextLid,
          current := ⟨s0.nextLid, env.rawKey raw, env.rawMatched raw⟩,
          nextLid := s0.nextLid + 1,
          steps := s0.steps +
            totalGuards env ⟨s0.nextLid, env.rawKey raw, env.rawMatched raw⟩ s0.current,
          events := s0.events
            ++ ((phaseGuardLists env ⟨s0.nextLid, env.rawKey raw, env.rawMatched raw⟩
                s0.current).flatten.map Ev.guardRun
            ++ [Ev.histPush s0.nextLid, Ev.setCurrent s0.nextLid, Ev.scroll,
                Ev.afterEach none]) },
        Outcome.settled none) := by
  obtain ⟨f, rfl⟩ : ∃ f, fuel = f + 1 := ⟨fuel - 1, by omega⟩
  simp only [pushWithRedirect, resolveLoc]
  rw [hredir]
  have hsame : isSameRouteLocation s0.current
      ⟨s0.nextLid, env.rawKey raw, env.rawMatched raw⟩ = false := by
    simp only [isSameRouteLocation, beq_eq_false_iff_ne, ne_eq]
    exact fun h => hdup h.symm
  simp only [hsame, Option.map_none, Option.getD_none, Bool.false_eq_true, and_false,
    if_false, ite_false]
  have hnav := runPhases_clean env ⟨s0.nextLid, env.rawKey raw, env.rawMatched raw⟩
    hAllow
    (phaseGuardLists env ⟨s0.nextLid, env.rawKey raw, env.rawMatched raw⟩ s0.current)
    { s0 with pending := s0.nextLid, nextLid := s0.nextLid + 1 }
    rfl (noFire_of_steps env s0 _ hnf (by simp))
  unfold navigate
  rw [hnav]
  have hfirst0 : ¬ s0.current.lid = 0 := by simpa [START_LOCATION] using hfirst
  simp [finalizeNavigation, checkCanceledNavigation, triggerAfterEach, emit, hrep,
    START_LOCATION, hfirst0, totalGuards, List.append_assoc]

end Ctrl

namespace Ctrl

/-- C5: a navigation without `force` whose resolved target declares no
redirect and is value-equal to the current location settles with the
`Duplicated` failure value; no guard runs (no `guardRun` event), no history
`push`/`replace` happens and the current location is untouched, yet the
scroll hook (`handleScroll(from, from, true, false)`) and the `afterEach`
notification carrying the failure still fire. -/
theorem c5_duplicated_short_circuit (env : Env) (raw : Nat) (s : CState) (fuel : Nat)
    (hforce : env.rawForce raw = false)
    (hredir : (env.rawMatched raw).getLast?.bind (fun r => r.redirect) = none)
    (hsame : env.rawKey raw = s.current.key)
    (hfuel : 1 ≤ fuel) :
    pushWithRedirect env fuel raw none none s =
      ({ s with pending := s.nextLid, nextLid := s.nextLid + 1,
                events := s.events ++ [Ev.scroll, Ev.afterEach (some Fail.duplicated)] },
        Outcome.settled (some Fail.duplicated)) := by
  obtain ⟨f, rfl⟩ : ∃ f, fuel = f + 1 := ⟨fuel - 1, by omega⟩
  simp only [pushWithRedirect, resolveLoc]
  rw [hredir]
  have hsame2 : isSameRouteLocation s.current
      ⟨s.nextLid, env.rawKey raw, env.rawMatched raw⟩ = true := by
    simp [isSameRouteLocation, hsame]
  simp [hforce, hsame2, triggerAfterEach, emit]

/-- Environment for the C5 witness: resolving the request yields the same
value key as the current location. -/
def dupEnv : Env :=
  ⟨[], [], fun _ _ => GOutcome.allow, fun _ => 0, fun _ => [],
    fun _ => false, fun _ => false, none⟩

def startState : CState := ⟨0, START_LOCATION, 1, 0, []⟩

theorem c5_duplicated_short_circuit_witness :
    pushWithRedirect dupEnv 1 0 none none startState =
      (⟨1, START_LOCATION, 2, 0, [Ev.scroll, Ev.afterEach (some Fail.duplicated)]⟩,
        Outcome.settled (some Fail.duplicated)) := by
  have h := c5_duplicated_short_circuit dupEnv 0 startState 1 rfl rfl rfl (le_refl 1)
  exact h.trans (by decide)

/-- A route whose single matched record redirects to the navigation request
itself (a record-level self redirect, `{ path, redirect: path }`). -/
def recSelfEnv : Env :=
  ⟨[], [], fun _ _ => GOutcome.allow, fun _ => 1,
    fun _ => [{ rid := 0, redirect := some 0 }],
    fun _ => false, fun _ => false, none⟩

/-- A single global `beforeEach` guard that issues a redirect to the same
location on its first 11 invocations and then allows. -/
def guard11Env : Env :=
  ⟨[5], [], fun _ st => if st < 11 then GOutcome.redirect 0 else GOutcome.allow,
    fun _ => 1, fun _ => [], fun _ => false, fun _ => false, none⟩

/-- A single global `beforeEach` guard that always redirects to the same
location. -/
def guardForeverEnv : Env :=
  ⟨[5], [], fun _ _ => GOutcome.redirect 0,
    fun _ => 1, fun _ => [], fun _ => false, fun _ => false, none⟩

/-- A record-level self-redirect loops through `pushWithRedirect` without
ever settling or rejecting: no redirect counter guards this branch of the
source, so at every recursion depth the call is still recursing. -/
theorem recordRedirect_loop_never_settles :
    ∀ (fuel : Nat) (opts : Option (Bool × Bool)) (rf : Option RFrom) (s : CState),
      (pushWithRedirect recSelfEnv fuel 0 opts rf s).2 = Outcome.fuelOut := by
  intro fuel
  induction fuel with
  | zero => intro opts rf s; rfl
  | succ f ih => intro opts rf s; exact ih _ _ _

/-- C2 counterexample.  The claim says a redirect chain from one origin
exceeding 10 rejects with `InfiniteRedirect`; in particular a guard
redirecting to itself 11 times should yield that rejection.  On the code:
(a) a record-level self redirect never rejects at all — after 100 recursion
steps (chain length far above 10) the navigation is still recursing
(`fuelOut`), headed for a stack overflow, and (b) a guard that redirects to
itself exactly 11 times and then allows settles successfully, because the
counter (which skips the first redirect) only reaches 10, never exceeding
the bound. -/
theorem c2_counterexample :
    (pushWithRedirect recSelfEnv 100 0 none none startState).2 = Outcome.fuelOut ∧
      (pushWithRedirect guard11Env 100 0 none none startState).2
        = Outcome.settled none := by
  exact ⟨recordRedirect_loop_never_settles 100 none none startState, by decide⟩

/-- C2 amended: record-level redirect chains are unbounded (the navigation
never settles, recursing forever); guard-issued redirects to the same
location are bounded by the dev-mode counter attached to the original
request, whose first redirect is uncounted: a guard that redirects to
itself forever is rejected with the `Infinite redirect in navigation guard`
error on its 12th redirect (12 guard invocations), while a guard that
redirects to itself 11 times completes successfully. -/
theorem c2_amended_redirect_bounds :
    (∀ (fuel : Nat) (opts : Option (Bool × Bool)) (rf : Option RFrom) (s : CState),
        (pushWithRedirect recSelfEnv fuel 0 opts rf s).2 = Outcome.fuelOut) ∧
      (pushWithRedirect guardForeverEnv 100 0 none none startState).2
          = Outcome.rejectedInfinite ∧
      ((pushWithRedirect guardForeverEnv 100 0 none none startState).1.events.filter
          (fun e => match e with | Ev.guardRun _ => true | _ => false)).length = 12 ∧
      (pushWithRedirect guard11Env 100 0 none none startState).2
          = Outcome.settled none := by
  exact ⟨recordRedirect_loop_never_settles, by decide, by decide, by decide⟩

end Ctrl

namespace Ctrl

/-- Scenario for C3: two global `beforeEach` guards; a competing navigation
overwrites the pending token right after the first guard settles. -/
def c3Env : Env :=
  ⟨[1, 2], [], fun _ _ => GOutcome.allow, fun _ => 1, fun _ => [],
    fun _ => false, fun _ => false, some (1, 99)⟩

def c3Target : LocM := ⟨5, 1, []⟩

def c3State : CState := ⟨5, START_LOCATION, 6, 0, []⟩

/-- C3 counterexample.  The claim says the controller re-checks the pending
token after every individual guard settles and, once the token no longer
matches, no later guard of any phase runs.  On the code the check is pushed
once at the end of each phase's queue: here the token is overwritten by a
competing navigation right after guard 1 settles (`interrupt = (1, 99)`),
yet guard 2 — in the same phase — still runs before the navigation fails
with `Cancelled`. -/
theorem c3_counterexample :
    (navigate c3Env c3Target START_LOCATION c3State).1.events
        = [Ev.guardRun 1, Ev.guardRun 2] ∧
      (navigate c3Env c3Target START_LOCATION c3State).2 = some Fail.cancelled := by
  decide

/-- C3 amended: the pending-token re-check happens at the end of every
phase (hence before every later phase and again at finalization), not after
every individual guard.  If the token is overwritten (with a foreign
location) at settlement `k` within the guard phases, the navigation runs
exactly the phases up to and including the one containing settlement `k`
(guards of the interrupted phase still finish), then fails with `Cancelled`
at that phase boundary, emitting no event besides the guard invocations: no
guard of any later phase runs and no other side effect is performed. -/
theorem c3_cancellation_checked_at_phase_end (env : Env) (toLoc fromLoc : LocM)
    (s : CState) (k bl : Nat)
    (hAllow : allowAll env) (hIntr : env.interrupt = some (k, bl))
    (hbl : bl ≠ toLoc.lid) (hp : s.pending = toLoc.lid) (hk0 : s.steps < k)
    (hk : k ≤ s.steps + totalGuards env toLoc fromLoc) :
    navigate env toLoc fromLoc s =
      ({ s with
          steps := s.steps + ((cutPhases k s.steps
            (phaseGuardLists env toLoc fromLoc)).map List.length).sum,
          pending := bl,
          events := s.events ++ (cutPhases k s.steps
            (phaseGuardLists env toLoc fromLoc)).flatten.map Ev.guardRun },
        some Fail.cancelled) := by
  unfold navigate
  exact runPhases_cancel env toLoc k bl hAllow hIntr hbl _ s hp hk0
    (by simpa [totalGuards] using hk)

theorem c3_cancellation_checked_at_phase_end_witness :
    navigate c3Env c3Target START_LOCATION c3State
      = (⟨99, START_LOCATION, 6, 2, [Ev.guardRun 1, Ev.guardRun 2]⟩,
          some Fail.cancelled) := by
  have h := c3_cancellation_checked_at_phase_end c3Env c3Target START_LOCATION c3State
    1 99 (fun g st => rfl) rfl (by decide) rfl (by decide) (by decide)
  exact h.trans (by decide)

/-- Scenario for C4: leaving two records (a parent and a child, both with a
registered leave guard), entering nothing. -/
def recP : RecM := { rid := 1, leaveGuards := [11] }

def recC : RecM := { rid := 2, leaveGuards := [12] }

def c4From : LocM := ⟨1, 5, [recP, recC]⟩

def c4To : LocM := ⟨9, 6, []⟩

def c4Env : Env :=
  ⟨[], [], fun _ _ => GOutcome.allow, fun _ => 6, fun _ => [],
    fun _ => false, fun _ => false, none⟩

def c4State : CState := ⟨9, c4From, 10, 0, []⟩

/-- C4 counterexample.  The claim says per-record leave guards run in
leaf-to-root order.  Leaving the chain parent `recP` (leave guard 11) →
child `recC` (leave guard 12), the code iterates the leaving records in the
order `extractChangingRecords` produced them — root to leaf — so guard 11
(parent) runs before guard 12 (child); leaf-to-root would be `[12, 11]`. -/
theorem c4_counterexample :
    (navigate c4Env c4To c4From c4State).1.events
        = [Ev.guardRun 11, Ev.guardRun 12] ∧
      [Ev.guardRun 11, Ev.guardRun 12] ≠ [Ev.guardRun 12, Ev.guardRun 11] := by
  decide

/-- C4 amended: for a navigation that is neither a redirect nor a
duplicate, with every guard allowing and no competing navigation, the guard
invocations happen strictly in this sequence (each settling before the
next starts, the embedding being sequential by construction):
component `beforeRouteLeave` guards of the left records in leaf-to-root
order followed by the registered per-record leave guards of the left
records in root-to-leaf order; global `beforeEach` guards in registration
order; component `beforeRouteUpdate` guards of the reused records followed
by their registered update guards, root-to-leaf; record `beforeEnter`
guards of newly entered records, root-to-leaf; component
`beforeRouteEnter` guards of newly entered records; global `beforeResolve`
guards in registration order. -/
theorem c4_guard_phase_order (env : Env) (toLoc fromLoc : LocM) (s : CState)
    (hAllow : allowAll env) (hIntr : env.interrupt = none)
    (hp : s.pending = toLoc.lid) :
    navigate env toLoc fromLoc s =
      ({ s with
          steps := s.steps + totalGuards env toLoc fromLoc,
          events := s.events ++
            (((fromLoc.matched.filter (fun r => ¬ memRec r toLoc.matched)).reverse.flatMap
                  (fun r => r.componentLeave)
                ++ (extractChangingRecords toLoc fromLoc).1.flatMap (fun r => r.leaveGuards))
              ++ (env.beforeEachList
              ++ (((toLoc.matched.filter (fun r => memRec r fromLoc.matched)).flatMap
                    (fun r => r.componentUpdate)
                  ++ (extractChangingRecords toLoc fromLoc).2.1.flatMap
                    (fun r => r.updateGuards))
                ++ ((toLoc.matched.flatMap
                    (fun r => if ¬ memRec r fromLoc.matched then r.beforeEnter else []))
                  ++ (((toLoc.matched.filter (fun r => ¬ memRec r fromLoc.matched)).flatMap
                        (fun r => r.componentEnter))
                    ++ env.beforeResolveList))))).map Ev.guardRun },
        none) := by
  unfold navigate
  have hnf : noFire env s := by
    intro k l hkl
    rw [hIntr] at hkl
    cases hkl
  rw [runPhases_clean env toLoc hAllow _ s hp hnf]
  simp [phaseGuardLists, totalGuards, List.append_assoc]

theorem c4_guard_phase_order_witness :
    navigate c4Env c4To c4From c4State
      = (⟨9, c4From, 10, 2, [Ev.guardRun 11, Ev.guardRun 12]⟩, none) := by
  have h := c4_guard_phase_order c4Env c4To c4From c4State (fun g st => rfl) rfl rfl
  exact h.trans (by decide)

end Ctrl

namespace Ctrl

/-- The race of two navigations in the single-threaded model: navigation A
is pushed; while one of its guards is awaited, navigation B's push runs
(modelled by the interrupt overwriting the pending token with B's
identity); once A's promise chain has settled, B's remaining chain (whose
steps are independent of A's no-op tail) completes. -/
def raceScenario (env : Env) (rawA rawB fuelA fuelB : Nat) (s0 : CState) :
    CState × Outcome × Outcome :=
  let ra := pushWithRedirect env fuelA rawA none none s0
  let rb := pushWithRedirect env fuelB rawB none none ra.1
  (rb.1, ra.2, rb.2)

/-- C1: when navigation B starts while navigation A is mid-guard-phase (the
pending token is overwritten with B's location identity after `k` guard
settlements, inside A's guard phases), A settles with the `Cancelled`
failure value and its finalize step performs no side effect — A's segment
of the event trace contains only its guard invocations and the `afterEach`
notification, never a history `push`/`replace` or a current-location
change — while B's navigation finalizes normally: the only history
persistence and current-location update are B's. -/
theorem c1_superseded_navigation_only_b_persists
    (env : Env) (rawA rawB : Nat) (s0 : CState) (k fuelA fuelB : Nat)
    (hAllow : allowAll env)
    (hIntr : env.interrupt = some (k, s0.nextLid + 1))
    (hk0 : s0.steps < k)
    (hkA : k ≤ s0.steps + totalGuards env
      ⟨s0.nextLid, env.rawKey rawA, env.rawMatched rawA⟩ s0.current)
    (hredirA : (env.rawMatched rawA).getLast?.bind (fun r => r.redirect) = none)
    (hredirB : (env.rawMatched rawB).getLast?.bind (fun r => r.redirect) = none)
    (hdupA : env.rawKey rawA ≠ s0.current.key)
    (hdupB : env.rawKey rawB ≠ s0.current.key)
    (hrepB : env.rawReplace rawB = false)
    (hfirstB : s0.current.lid ≠ START_LOCATION.lid)
    (hfA : 1 ≤ fuelA) (hfB : 1 ≤ fuelB) :
    raceScenario env rawA rawB fuelA fuelB s0 =
      ({ s0 with
          pending := s0.nextLid + 1,
          current := ⟨s0.nextLid + 1, env.rawKey rawB, env.rawMatched rawB⟩,
          nextLid := s0.nextLid + 2,
          steps := s0.steps
            + ((cutPhases k s0.steps (phaseGuardLists env
                ⟨s0.nextLid, env.rawKey rawA, env.rawMatched rawA⟩ s0.current)).map
                  List.length).sum
            + totalGuards env ⟨s0.nextLid + 1, env.rawKey rawB, env.rawMatched rawB⟩
                s0.current,
          events := s0.events
            ++ ((cutPhases k s0.steps (phaseGuardLists env
                  ⟨s0.nextLid, env.rawKey rawA, env.rawMatched rawA⟩
                    s0.current)).flatten.map Ev.guardRun
              ++ ([Ev.afterEach (some Fail.cancelled)]
              ++ ((phaseGuardLists env
                    ⟨s0.nextLid + 1, env.rawKey rawB, env.rawMatched rawB⟩
                      s0.current).flatten.map Ev.guardRun
                ++ [Ev.histPush (s0.nextLid + 1), Ev.setCurrent (s0.nextLid + 1),
                    Ev.scroll, Ev.afterEach none]))) },
        Outcome.settled (some Fail.cancelled), Outcome.settled none) := by
  unfold raceScenario
  have hA := pushWithRedirect_cancel env rawA s0 k (s0.nextLid + 1) fuelA hAllow hIntr
    (by omega) hk0 hkA hredirA hdupA hfA
  rw [hA]
  dsimp only
  have hkcut : k ≤ s0.steps + ((cutPhases k s0.steps (phaseGuardLists env
      ⟨s0.nextLid, env.rawKey rawA, env.rawMatched rawA⟩ s0.current)).map
        List.length).sum :=
    cutPhases_sum_ge k _ s0.steps hk0 (by simpa [totalGuards] using hkA)
  have hB := pushWithRedirect_clean env rawB
    ({ s0 with
        pending := s0.nextLid + 1,
        nextLid := s0.nextLid + 1,
        steps := s0.steps + ((cutPhases k s0.steps (phaseGuardLists env
          ⟨s0.nextLid, env.rawKey rawA, env.rawMatched rawA⟩ s0.current)).map
            List.length).sum,
        events := s0.events
          ++ ((cutPhases k s0.steps (phaseGuardLists env
            ⟨s0.nextLid, env.rawKey rawA, env.rawMatched rawA⟩
              s0.current)).flatten.map Ev.guardRun
          ++ [Ev.afterEach (some Fail.cancelled)]) })
    fuelB hAllow
    (by intro k2 l2 hkl
        rw [hIntr] at hkl
        cases hkl
        exact hkcut)
    hredirB hdupB hrepB hfirstB hfB
  rw [hB]
  simp [totalGuards, List.append_assoc]

/-- Concrete witness scenario for C1: one global guard; B's push happens
while A's guard is awaited. -/
def c1Env : Env :=
  ⟨[7], [], fun _ _ => GOutcome.allow,
    fun raw => if raw = 0 then 3 else 4,
    fun _ => [], fun _ => false, fun _ => false, some (1, 6)⟩

def c1State : CState := ⟨0, ⟨2, 9, []⟩, 5, 0, []⟩

theorem c1_superseded_navigation_only_b_persists_witness :
    raceScenario c1Env 0 1 1 1 c1State =
      (⟨6, ⟨6, 4, []⟩, 7, 2,
          [Ev.guardRun 7, Ev.afterEach (some Fail.cancelled), Ev.guardRun 7,
            Ev.histPush 6, Ev.setCurrent 6, Ev.scroll, Ev.afterEach none]⟩,
        Outcome.settled (some Fail.cancelled), Outcome.settled none) := by
  have h := c1_superseded_navigation_only_b_persists c1Env 0 1 c1State 1 1 1
    (fun g st => rfl) rfl (by decide) (by decide) rfl rfl (by decide) (by decide)
    rfl (by decide) (by decide) (by decide)
  exact h.trans (by decide)

end Ctrl

namespace Reg

/-- A parameter key of a compiled path pattern (name, `?` optional flag,
`*`/`+` repeatable flag). -/
structure PKey where
  name : String
  optional : Bool
  repeatable : Bool
deriving DecidableEq

/-- Modelled from the spec: one segment of a path pattern — a static
literal or a `:name` parameter with optional modifiers.  (The missing
`pathParserRanker.ts` compiles patterns to regexps; custom parameter
regexps are outside this embedding, which covers the segment forms the
verified claims exercise.) -/
inductive Seg where
  | static (text : String)
  | param (key : PKey)
deriving DecidableEq

/-- Split a character list at every `/` (the computable core of
`String.splitOn "/"`). -/
def splitSegs : List Char → List (List Char)
  | [] => [[]]
  | c :: cs =>
    let rest := splitSegs cs
    if c == ('/') then [] :: rest
    else
      match rest with
      | seg :: more => (c :: seg) :: more
      | [] => [[c]]

/-- Split a pattern into its `/`-separated segments (dropping the leading
empty segment of an absolute path). -/
def tokenizePath (p : String) : List String :=
  ((splitSegs p.data).map (fun seg => String.mk seg)).drop 1

def firstCharIs (s : String) (c : Char) : Bool :=
  match s.data with
  | [] => false
  | d :: _ => d == c

def lastCharIs (s : String) (c : Char) : Bool :=
  match s.data.getLast? with
  | none => false
  | some d => d == c

def strTail (s : String) : String := String.mk (s.data.drop 1)

def strDropLast (s : String) : String := String.mk s.data.dropLast

/-- Modelled from the spec: classify one segment. -/
def parseSeg (s : String) : Seg :=
  if firstCharIs s (':') then
    let rest := strTail s
    if lastCharIs rest ('?') then .param ⟨strDropLast rest, true, false⟩
    else if lastCharIs rest ('*') then .param ⟨strDropLast rest, true, true⟩
    else if lastCharIs rest ('+') then .param ⟨strDropLast rest, false, true⟩
    else .param ⟨rest, false, false⟩
  else .static s

def compilePath (p : String) : List Seg := (tokenizePath p).map parseSeg

/-- Modelled from the spec's scoring policy: one score per segment; static
segments outrank dynamic ones; required outranks optional; non-repeatable
outranks repeatable. -/
def segScore : Seg → Int
  | .static _ => 8
  | .param k => 4 + (if k.optional then -1 else 0) + (if k.repeatable then -2 else 0)

def computeScore (p : String) : List Int := (compilePath p).map segScore

def computeKeys (p : String) : List PKey :=
  (compilePath p).filterMap (fun s => match s with
    | .param k => some k
    | .static _ => none)

/-- Modelled from the spec: the compiled matching predicate, restricted to
static and single-value parameter segments (a parameter matches any
non-empty no-slash segment). -/
def testPath (pattern path : String) : Bool :=
  let ps := compilePath pattern
  let ss := tokenizePath path
  (ps.length == ss.length) &&
    (List.zip ps ss).all (fun pr =>
      match pr.1 with
      | .static t => pr.2 == t
      | .param _ => !(pr.2 == ""))

/-- Modelled from the spec: the parameter extractor of a compiled pattern. -/
def parsePath (pattern path : String) : List (String × String) :=
  (List.zip (compilePath pattern) (tokenizePath path)).filterMap (fun pr =>
    match pr.1 with
    | .param k => some (k.name, pr.2)
    | .static _ => none)

/-- Matcher-level errors surfaced by `resolve` (`createRouterError` kinds
`MATCHER_NOT_FOUND` and the serializer's missing-parameter failure). -/
inductive MatcherErr where
  | matcherNotFound
  | missingParam (name : String)
deriving DecidableEq

def lookupParam (params : List (String × String)) (n : String) : Option String :=
  (params.find? (fun pr => pr.1 == n)).map (fun pr => pr.2)

/-- Modelled from the spec: the path builder (`matcher.stringify`) —
serialize a parameter mapping back into a concrete path, failing with
`MissingParam` when a required parameter is absent. -/
def stringifySegs : List Seg → List (String × String) → Except MatcherErr String
  | [], _ => .ok ""
  | .static t :: rest, params =>
    (stringifySegs rest params).map (fun r => "/" ++ t ++ r)
  | .param k :: rest, params =>
    match lookupParam params k.name with
    | some v => (stringifySegs rest params).map (fun r => "/" ++ v ++ r)
    | none =>
      if k.optional then stringifySegs rest params
      else .error (.missingParam k.name)

def stringifyPath (pattern : String) (params : List (String × String)) :
    Except MatcherErr String :=
  stringifySegs (compilePath pattern) params

/-- Modelled from the spec: `comparePathParserScore` — scores compared
lexicographically, most significant segment first; on a common-prefix tie
the score with more segments ranks first.  Negative means the first
argument ranks before (is more specific than) the second. -/
def comparePathParserScore : List Int → List Int → Int
  | [], [] => 0
  | [], _ :: _ => 1
  | _ :: _, [] => -1
  | x :: xs, y :: ys =>
    if x > y then -1 else if x < y then 1 else comparePathParserScore xs ys

/-- A compiled `RouteRecordMatcher` in arena form: the fields of the
normalized record this embedding needs (path, name, aliasOf), the compiled
artifacts (score, parameter keys), and the ownership links as arena
indices (exclusive parent reference, owned children, owned aliases).
`seq` is a model instrument recording the tick at which the matcher was
inserted into the ranked sequence (its insertion order); nothing in the
embedded operations reads it. -/
structure MNode where
  path : String
  name : Option String
  score : List Int
  keys : List PKey
  parent : Option Nat
  children : List Nat
  aliasList : List Nat
  aliasOf : Option Nat
  seq : Nat
deriving DecidableEq

instance : Inhabited MNode := ⟨⟨"", none, [], [], none, [], [], none, 0⟩⟩

/-- The registry state of `createRouterMatcher`: the arena of matcher
nodes (object identity = arena index, allocation is append-only), the
ranked `matchers` sequence, the `matcherMap` name index, and the insertion
tick counter. -/
structure RState where
  store : List MNode
  matchers : List Nat
  matcherMap : List (String × Nat)
  tick : Nat
deriving DecidableEq

def emptyRegistry : RState := ⟨[], [], [], 0⟩

def nodeOf (s : RState) (id : Nat) : MNode := s.store.getD id default

def scoreOf (s : RState) (id : Nat) : List Int := (nodeOf s id).score

def seqOf (s : RState) (id : Nat) : Nat := (nodeOf s id).seq

/-- `matcherMap.get(name)`. -/
def mapGet (m : List (String × Nat)) (n : String) : Option Nat :=
  (m.find? (fun pr => pr.1 == n)).map (fun pr => pr.2)

/-- `matcherMap.set(name, matcher)`. -/
def mapSet (m : List (String × Nat)) (n : String) (id : Nat) : List (String × Nat) :=
  (n, id) :: m.filter (fun pr => ¬ (pr.1 == n))

/-- `matcherMap.delete(name)`. -/
def mapDelete (m : List (String × Nat)) (n : String) : List (String × Nat) :=
  m.filter (fun pr => ¬ (pr.1 == n))

/-- `isAliasRecord`: a matcher is an alias record when it or any ancestor
carries `aliasOf`.  Parents are always created before their children, so
the parent walk strictly decreases the arena index (the `p < id` guard and
the `id + 1` fuel below make this a total, computable function that agrees
with the source's loop on every state the registry operations build). -/
def isAliasRecordFuel (store : List MNode) : Nat → Nat → Bool
  | 0, _ => false
  | fuel+1, id =>
    match store[id]? with
    | none => false
    | some n =>
      n.aliasOf.isSome ||
        (match n.parent with
         | none => false
         | some p => if p < id then isAliasRecordFuel store fuel p else false)

def isAliasRecord (store : List MNode) (id : Nat) : Bool :=
  isAliasRecordFuel store (id + 1) id

def setNode (s : RState) (id : Nat) (n : MNode) : RState :=
  { s with store := s.store.set id n }

/-- `parent.children.push(matcher)`. -/
def pushChild (s : RState) (p c : Nat) : RState :=
  setNode s p (let n := nodeOf s p; { n with children := n.children ++ [c] })

/-- `originalRecord.alias.push(matcher)` (`alias` is a reserved word in
Lean, so the field is `aliasList`). -/
def pushAliasM (s : RState) (o a : Nat) : RState :=
  setNode s o (let n := nodeOf s o; { n with aliasList := n.aliasList ++ [a] })

/-- Modelled from the spec: `createRouteRecordMatcher` (missing
`pathMatcher.ts`) — compile the record's path, allocate the matcher with
its ownership links, and register it in its parent's owned-children list.
Exclusive ownership demands each matcher sit in exactly one owner list, so
a parent adopts a child only when both sit on the same side of the
alias/canonical divide (an alias copy of a child is owned through the
alias structure instead). -/
def createRouteRecordMatcher (s : RState) (path : String) (name : Option String)
    (parent aliasOf : Option Nat) : RState × Nat :=
  let id := s.store.length
  let node : MNode :=
    { path := path, name := name, score := computeScore path,
      keys := computeKeys path, parent := parent, children := [],
      aliasList := [], aliasOf := aliasOf, seq := 0 }
  let s := { s with store := s.store ++ [node] }
  match parent with
  | some p =>
    if (nodeOf s p).aliasOf.isNone = aliasOf.isNone then (pushChild s p id, id)
    else (s, id)
  | none => (s, id)

/-- The insertion scan of `insertMatcher`: advance while
`comparePathParserScore(matcher, matchers[i]) >= 0`, then splice in. -/
def insertRanked (s : RState) (id : Nat) : List Nat → List Nat
  | [] => [id]
  | m :: ms =>
    if 0 ≤ comparePathParserScore (scoreOf s id) (scoreOf s m) then
      m :: insertRanked s id ms
    else id :: m :: ms

/-- `insertMatcher`: rank-insert the matcher and index it by name when it
is a named non-alias record.  (Recording the insertion tick in `seq` is
the model instrument; the source's insertion order is positional.) -/
def insertMatcher (s : RState) (id : Nat) : RState :=
  let s := setNode s id { nodeOf s id with seq := s.tick }
  let s := { s with tick := s.tick + 1 }
  let s := { s with matchers := insertRanked s id s.matchers }
  match (nodeOf s id).name with
  | some n =>
    if isAliasRecord s.store id then s
    else { s with matcherMap := mapSet s.matcherMap n id }
  | none => s

end Reg

namespace Reg

/-- The argument of `removeRoute`: a record name or a matcher reference. -/
inductive MatcherRef where
  | byName (n : String)
  | byRef (id : Nat)
deriving DecidableEq

/-- `matchers.splice(matchers.indexOf(matcher), 1)`: removes the first
occurrence; when the matcher is absent `indexOf` is `-1` and
`splice(-1, 1)` removes the last entry. -/
def spliceOutJs (ms : List Nat) (id : Nat) : List Nat :=
  if ms.contains id then ms.erase id else ms.dropLast

/-- `removeRoute(matcherRef)`: by name — drop the name entry, splice the
matcher out of the ranked sequence and cascade into its owned children and
aliases (`forEach(removeRoute)`, modelled by the folds); by reference — if
the matcher is still in the ranked sequence, erase it, drop its name entry
and cascade.  The fuel bounds the cascade depth (unbounded in the source);
ownership links always point to later-allocated matchers, so
`store.length` fuel suffices on states built by the registry operations. -/
def removeRouteFuel : Nat → MatcherRef → RState → RState
  | 0, _, s => s
  | fuel+1, .byName n, s =>
    match mapGet s.matcherMap n with
    | none => s
    | some id =>
      let s1 := { s with matcherMap := mapDelete s.matcherMap n }
      let s2 := { s1 with matchers := spliceOutJs s1.matchers id }
      let s3 := (nodeOf s2 id).children.foldl
        (fun st c => removeRouteFuel fuel (.byRef c) st) s2
      (nodeOf s3 id).aliasList.foldl
        (fun st a => removeRouteFuel fuel (.byRef a) st) s3
  | fuel+1, .byRef id, s =>
    if s.matchers.contains id then
      let s1 := { s with matchers := s.matchers.erase id }
      let s2 :=
        match (nodeOf s1 id).name with
        | some n => { s1 with matcherMap := mapDelete s1.matcherMap n }
        | none => s1
      let s3 := (nodeOf s2 id).children.foldl
        (fun st c => removeRouteFuel fuel (.byRef c) st) s2
      (nodeOf s3 id).aliasList.foldl
        (fun st a => removeRouteFuel fuel (.byRef a) st) s3
    else s

def removeRoute (ref : MatcherRef) (s : RState) : RState :=
  removeRouteFuel s.store.length ref s

mutual

/-- A raw route record (`RouteRecordRaw`), restricted to the fields the
registry logic uses: path, optional name, alias paths and children
(components, meta, redirect and guards do not influence the registry
structure).  Children form the mutual list type `RawList` so that the
record size below is a plain structural recursion. -/
inductive Raw where
  | mk (path : String) (name : Option String) (aliasPaths : List String)
      (children : RawList)

inductive RawList where
  | nil
  | cons (head : Raw) (tail : RawList)

end

def RawList.toList : RawList → List Raw
  | .nil => []
  | .cons h t => h :: t.toList

mutual

/-- Number of records in a raw route tree; bounds the `addRoute` recursion
depth. -/
def rawSize : Raw → Nat
  | .mk _ _ _ children => 1 + rawListSize children

def rawListSize : RawList → Nat
  | .nil => 0
  | .cons h t => 1 + rawSize h + rawListSize t

end

/-- `addRoute(record, parent?, originalRecord?)`: build the list of
normalized records (the main record plus one per alias path, tagged
`isMain`) and process them in order; each iteration creates the matcher,
does the alias bookkeeping / named-route replacement, adds the children
(`addRoute(children[i], matcher, originalRecord && originalRecord.children[i])`,
where `originalRecord` is the loop variable, reassigned to the first
created matcher at the end of the first iteration), and rank-inserts the
matcher.  The fold accumulator carries (state, loop variable
`originalRecord`, `originalMatcher`).  The fuel bounds the recursion depth
into children; `sizeOf` of the record (strictly larger than any child's)
is always enough. -/
def entryPath (parent : Option Nat) (s0 : RState) (raw : String) : String :=
  match parent with
  | some p =>
    if ¬ firstCharIs raw ('/') then
      let parentPath := (nodeOf s0 p).path
      let connectingSlash := if lastCharIs parentPath ('/') then "" else "/"
      parentPath ++ (if raw = "" then "" else connectingSlash ++ raw)
    else raw
  | none => raw

/-- The `aliasOf` field of the normalized record: the main record points at
`originalRecord` (the call parameter) when present; an alias entry points at
the original record when present, otherwise at the main record's matcher. -/
def entryAliasOf (isMain : Bool) (original originalMatcher : Option Nat) :
    Option Nat :=
  match isMain with
  | true => original
  | false => some ((original.orElse (fun _ => originalMatcher)).getD 0)

/-- The alias bookkeeping / named-route replacement between matcher creation
and the children loop: when the loop variable `originalVar` is set we are an
alias and register on it; otherwise the first matcher becomes
`originalMatcher`, later ones register on it, and a named top-level
non-alias add first removes the prior registration of that name.  Returns
the state and the updated `originalMatcher`. -/
def entryStep2 (name : Option String) (original : Option Nat)
    (originalVar originalMatcher : Option Nat) (cr : RState × Nat) :
    RState × Option Nat :=
  match originalVar with
  | some o => (pushAliasM cr.1 o cr.2, originalMatcher)
  | none =>
    let om := originalMatcher.getD cr.2
    let sb := if om ≠ cr.2 then pushAliasM cr.1 om cr.2 else cr.1
    let sc :=
      match name with
      | some n =>
        if original.isNone ∧ ¬ isAliasRecord sb.store cr.2 then
          removeRoute (.byName n) sb
        else sb
      | none => sb
    (sc, some om)

/-- One iteration of the normalized-records loop of `addRoute`; `rec` is the
recursive `addRoute` call used for the children.  The accumulator carries
(state, loop variable `originalRecord`, `originalMatcher`). -/
def addRouteEntry (rec : Raw → Option Nat → Option Nat → RState → RState × Option Nat)
    (parent : Option Nat) (name : Option String) (original : Option Nat)
    (children : RawList) (acc : RState × Option Nat × Option Nat)
    (entry : String × Bool) : RState × Option Nat × Option Nat :=
  let s0 := acc.1
  let originalVar := acc.2.1
  let cr := createRouteRecordMatcher s0 (entryPath parent s0 entry.1) name parent
    (entryAliasOf entry.2 original acc.2.2)
  let step2 := entryStep2 name original originalVar acc.2.2 cr
  let s3 := children.toList.enum.foldl
    (fun st ci =>
      let orig_i := originalVar.bind (fun o => (nodeOf st o).children[ci.1]?)
      (rec ci.2 (some cr.2) orig_i st).1)
    step2.1
  let s4 := insertMatcher s3 cr.2
  (s4, some (originalVar.getD cr.2), step2.2)

def addRouteAuxF : Nat → Raw → Option Nat → Option Nat → RState → RState × Option Nat
  | 0, _, _, _, s => (s, none)
  | fuel+1, .mk path name aliasPaths children, parent, original, s =>
    let entries := (path, true) :: aliasPaths.map (fun a => (a, false))
    let result := entries.foldl
      (addRouteEntry (addRouteAuxF fuel) parent name original children)
      (s, original, none)
    (result.1, result.2.2)

def addRouteAux (r : Raw) (parent original : Option Nat) (s : RState) :
    RState × Option Nat :=
  addRouteAuxF (rawSize r) r parent original s

/-- Router-level `addRoute`: the handle it returns is not modelled. -/
def addRoute (r : Raw) (parent : Option Nat) (s : RState) : RState :=
  (addRouteAux r parent none s).1

/-- The registry operations reachable through the router API. -/
inductive ROp where
  | add (parentName : Option String) (r : Raw)
  | remove (n : String)

/-- Apply one router operation: `addRoute` resolves the optional parent
name through `getRecordMatcher`; `removeRoute` resolves the name and
removes by matcher reference (as `router.removeRoute` does). -/
def applyROp (s : RState) : ROp → RState
  | .add pn r =>
    let parent := pn.bind (fun n => mapGet s.matcherMap n)
    (addRouteAux r parent none s).1
  | .remove n =>
    match mapGet s.matcherMap n with
    | some m => removeRoute (.byRef m) s
    | none => s

def runROps (ops : List ROp) : RState := ops.foldl applyROp emptyRegistry

end Reg

namespace Reg

/-- The three shapes of a `MatcherLocationRaw`: by name (with supplied
params), by absolute path, or relative to the current location. -/
inductive MatcherLocationRaw where
  | byName (n : String) (params : List (String × String))
  | byPath (p : String)
  | relative (params : List (String × String))
deriving DecidableEq

/-- A resolved `MatcherLocation`: resolved name, path, params, and the
root-to-leaf matched chain of records (arena indices of their matchers).
The merged `meta` is omitted — records carry no metadata in this
embedding. -/
structure MatcherLocation where
  name : Option String
  path : String
  params : List (String × String)
  matched : List Nat
deriving DecidableEq

/-- `paramsFromLocation`: keep only the listed keys of the current params. -/
def paramsFromLocation (params : List (String × String)) (keys : List String) :
    List (String × String) :=
  keys.filterMap (fun k => (lookupParam params k).map (fun v => (k, v)))

/-- `assign(base, extra)` on param objects: keys of `extra` override keys
of `base`. -/
def assignParams (base extra : List (String × String)) : List (String × String) :=
  base.filter (fun pr => ¬ extra.any (fun e => e.1 == pr.1)) ++ extra

/-- The matched-chain construction of `resolve`: walk `parent` links,
unshifting each record, so the root ends up first.  The guard `p < id` is
the termination measure (parents are created before children). -/
def matchedChainFuel (s : RState) : Nat → Nat → List Nat
  | 0, id => [id]
  | fuel+1, id =>
    match s.store[id]? with
    | none => [id]
    | some n =>
      match n.parent with
      | none => [id]
      | some p => if p < id then matchedChainFuel s fuel p ++ [id] else [id]

def matchedChain (s : RState) (id : Nat) : List Nat := matchedChainFuel s (id + 1) id

/-- `resolve(location, currentLocation)` of the matcher registry.  It is a
pure read of the registry state: no branch mutates `store`, `matchers`,
`matcherMap` or `tick`.  By name: unknown names throw `MATCHER_NOT_FOUND`
synchronously; otherwise params are the non-optional params inherited from
the current location overridden by the supplied ones, and the path is
built by the serializer (propagating its failure).  By path: the first
matcher in ranked order whose predicate accepts the path; with no match
the resolution still succeeds with an unmatched location.  Relative:
re-resolve against the current location's matcher (by name if present,
else by re-testing its path). -/
def resolve (s : RState) (location : MatcherLocationRaw)
    (currentLocation : MatcherLocation) : Except MatcherErr MatcherLocation :=
  match location with
  | .byName n lparams =>
    match mapGet s.matcherMap n with
    | none => .error .matcherNotFound
    | some m =>
      let node := nodeOf s m
      let params := assignParams
        (paramsFromLocation currentLocation.params
          ((node.keys.filter (fun k => ¬ k.optional)).map (fun k => k.name)))
        lparams
      match stringifyPath node.path params with
      | .ok path =>
        .ok { name := node.name, path := path, params := params,
              matched := matchedChain s m }
      | .error e => .error e
  | .byPath p =>
    match s.matchers.find? (fun m => testPath (nodeOf s m).path p) with
    | some m =>
      .ok { name := (nodeOf s m).name, path := p,
            params := parsePath (nodeOf s m).path p,
            matched := matchedChain s m }
    | none => .ok { name := none, path := p, params := [], matched := [] }
  | .relative lparams =>
    let mOpt :=
      match currentLocation.name with
      | some cn => mapGet s.matcherMap cn
      | none => s.matchers.find? (fun m => testPath (nodeOf s m).path currentLocation.path)
    match mOpt with
    | none => .error .matcherNotFound
    | some m =>
      let node := nodeOf s m
      let params := assignParams currentLocation.params lparams
      match stringifyPath node.path params with
      | .ok path =>
        .ok { name := node.name, path := path, params := params,
              matched := matchedChain s m }
      | .error e => .error e

/-- The first element of a list satisfying a predicate: `find?` returns an
element that satisfies it and everything before it fails it. -/
theorem find_first {α : Type} (q : α → Bool) :
    ∀ (l : List α) (b : α), l.find? q = some b →
      q b = true ∧ ∃ l1 l2, l = l1 ++ b :: l2 ∧ ∀ x ∈ l1, q x = false := by
  intro l
  induction l with
  | nil => intro b hb; cases hb
  | cons a l ih =>
    intro b hb
    by_cases ha : q a = true
    · rw [List.find?_cons_of_pos _ ha] at hb
      cases hb
      exact ⟨ha, [], l, rfl, by intro x hx; cases hx⟩
    · rw [List.find?_cons_of_neg _ (by simpa using ha)] at hb
      obtain ⟨hq, l1, l2, rfl, hall⟩ := ih b hb
      refine ⟨hq, a :: l1, l2, rfl, ?_⟩
      intro x hx
      rcases List.mem_cons.mp hx with hx | hx
      · subst hx
        simpa using ha
      · exact hall x hx

end Reg

namespace Reg

/-- C6: resolving an absolute-path target always succeeds (never throws):
the chosen matcher is the first of the ranked sequence whose compiled
predicate accepts the path (everything ranked before it rejects the path),
and when no matcher accepts, the resolution still returns successfully
with an empty matched chain, empty params and no name. -/
theorem c6_resolve_by_path_first_match (s : RState) (p : String)
    (cur : MatcherLocation) :
    (∃ loc, resolve s (.byPath p) cur = .ok loc) ∧
      (s.matchers.find? (fun m => testPath (nodeOf s m).path p) = none →
        resolve s (.byPath p) cur
          = .ok { name := none, path := p, params := [], matched := [] }) ∧
      (∀ m, s.matchers.find? (fun m2 => testPath (nodeOf s m2).path p) = some m →
        testPath (nodeOf s m).path p = true ∧
        (∃ l1 l2, s.matchers = l1 ++ m :: l2 ∧
          ∀ m2 ∈ l1, testPath (nodeOf s m2).path p = false) ∧
        resolve s (.byPath p) cur
          = .ok { name := (nodeOf s m).name, path := p,
                  params := parsePath (nodeOf s m).path p,
                  matched := matchedChain s m }) := by
  refine ⟨?_, ?_, ?_⟩
  · unfold resolve
    dsimp only
    cases h : s.matchers.find? (fun m => testPath (nodeOf s m).path p) with
    | none => exact ⟨_, rfl⟩
    | some m => exact ⟨_, rfl⟩
  · intro h
    unfold resolve
    dsimp only
    rw [h]
  · intro m hm
    obtain ⟨hq, l1, l2, heq, hall⟩ := find_first _ s.matchers m hm
    refine ⟨hq, ⟨l1, l2, heq, hall⟩, ?_⟩
    unfold resolve
    dsimp only
    rw [hm]

/-- A one-route registry (`/fixed`) for the C6 witness. -/
def regFx : RState := runROps [.add none (.mk "/fixed" none [] .nil)]

def curLoc0 : MatcherLocation := ⟨none, "/", [], []⟩

theorem c6_resolve_by_path_first_match_witness :
    resolve regFx (.byPath "/nope") curLoc0
        = .ok { name := none, path := "/nope", params := [], matched := [] } ∧
      resolve regFx (.byPath "/fixed") curLoc0
        = .ok { name := none, path := "/fixed", params := [], matched := [0] } := by
  constructor
  · exact (c6_resolve_by_path_first_match regFx "/nope" curLoc0).2.1 (by decide)
  · have h := ((c6_resolve_by_path_first_match regFx "/fixed" curLoc0).2.2 0
      (by decide)).2.2
    exact h.trans rfl

/-- C7: resolving by a name absent from the name index throws
`MATCHER_NOT_FOUND` synchronously rather than returning an unmatched
location.  `resolve` is a pure read in this embedding — it returns only
the `Except` value and leaves the registry state untouched, mirroring the
source, whose `resolve` never writes `matchers` or `matcherMap`. -/
theorem c7_resolve_unknown_name_throws (s : RState) (n : String)
    (params : List (String × String)) (cur : MatcherLocation)
    (h : mapGet s.matcherMap n = none) :
    resolve s (.byName n params) cur = .error .matcherNotFound := by
  unfold resolve
  dsimp only
  rw [h]

theorem c7_resolve_unknown_name_throws_witness :
    mapGet emptyRegistry.matcherMap "user" = none ∧
      resolve emptyRegistry (.byName "user" []) curLoc0
        = .error .matcherNotFound :=
  ⟨rfl, c7_resolve_unknown_name_throws emptyRegistry "user" [] curLoc0 rfl⟩

end Reg

namespace Reg

/-- The score comparator only returns -1, 0 or 1. -/
theorem cps_cases : ∀ a b : List Int, comparePathParserScore a b = -1 ∨
    comparePathParserScore a b = 0 ∨ comparePathParserScore a b = 1
  | [], [] => Or.inr (Or.inl rfl)
  | [], _ :: _ => Or.inr (Or.inr rfl)
  | _ :: _, [] => Or.inl rfl
  | x :: xs, y :: ys => by
    unfold comparePathParserScore
    split_ifs with h1 h2
    · exact Or.inl rfl
    · exact Or.inr (Or.inr rfl)
    · exact cps_cases xs ys

/-- The comparator returns 0 exactly on equal score lists. -/
theorem cps_zero : ∀ a b : List Int, comparePathParserScore a b = 0 ↔ a = b
  | [], [] => by simp [comparePathParserScore]
  | [], _ :: _ => by simp [comparePathParserScore]
  | _ :: _, [] => by simp [comparePathParserScore]
  | x :: xs, y :: ys => by
    have ih := cps_zero xs ys
    unfold comparePathParserScore
    split_ifs with h1 h2
    · simp only [List.cons.injEq]
      constructor
      · intro h; exact absurd h (by decide)
      · rintro ⟨h, -⟩; omega
    · simp only [List.cons.injEq]
      constructor
      · intro h; exact absurd h (by decide)
      · rintro ⟨h, -⟩; omega
    · have hxy : x = y := by omega
      simp [ih, hxy]

/-- The comparator is antisymmetric. -/
theorem cps_neg : ∀ a b : List Int, comparePathParserScore b a =
    -comparePathParserScore a b
  | [], [] => by simp [comparePathParserScore]
  | [], _ :: _ => by simp [comparePathParserScore]
  | _ :: _, [] => by simp [comparePathParserScore]
  | x :: xs, y :: ys => by
    have ih := cps_neg xs ys
    unfold comparePathParserScore
    split_ifs <;> first | exact ih | omega

/-- A strict comparator outcome on a cons pair, unfolded. -/
theorem cps_cons_lt (x y : Int) (xs ys : List Int) :
    comparePathParserScore (x :: xs) (y :: ys) < 0 ↔
      (y < x ∨ (x = y ∧ comparePathParserScore xs ys < 0)) := by
  show (if x > y then (-1 : Int) else if x < y then 1 else
    comparePathParserScore xs ys) < 0 ↔ _
  split_ifs with h1 h2
  · constructor
    · intro _; exact Or.inl h1
    · intro _; decide
  · constructor
    · intro h; exact absurd h (by decide)
    · rintro (h | ⟨h, -⟩) <;> omega
  · have hxy : x = y := by omega
    constructor
    · intro h; exact Or.inr ⟨hxy, h⟩
    · rintro (h | ⟨-, h⟩)
      · exact absurd h (by omega)
      · exact h

/-- Strict comparator outcomes compose transitively. -/
theorem cps_lt_trans : ∀ a b c : List Int, comparePathParserScore a b < 0 →
    comparePathParserScore b c < 0 → comparePathParserScore a c < 0
  | [], [], _ => fun h _ => absurd h (by simp [comparePathParserScore])
  | [], _ :: _, _ => fun h _ => absurd h (by simp [comparePathParserScore])
  | _ :: _, [], [] => fun _ h2 => absurd h2 (by simp [comparePathParserScore])
  | _ :: _, [], _ :: _ => fun _ h2 => absurd h2 (by simp [comparePathParserScore])
  | _ :: _, _ :: _, [] => fun _ _ => by simp [comparePathParserScore]
  | a :: as, b :: bs, c :: cs => fun h1 h2 => by
    rw [cps_cons_lt] at h1 h2 ⊢
    rcases h1 with h1 | ⟨hab, h1⟩
    · rcases h2 with h2 | ⟨hbc, h2⟩
      · exact Or.inl (by omega)
      · exact Or.inl (by omega)
    · rcases h2 with h2 | ⟨hbc, h2⟩
      · exact Or.inl (by omega)
      · exact Or.inr ⟨by omega, cps_lt_trans as bs cs h1 h2⟩

/-- The ranking relation maintained on the `matchers` sequence: `a` comes
before `b` when `a` scores strictly more specific, or they tie exactly and
`a` was inserted earlier (smaller insertion tick). -/
def rankBefore (s : RState) (a b : Nat) : Prop :=
  comparePathParserScore (scoreOf s a) (scoreOf s b) < 0 ∨
    (scoreOf s a = scoreOf s b ∧ seqOf s a < seqOf s b)

theorem rankBefore_trans (s : RState) (a b c : Nat) (h1 : rankBefore s a b)
    (h2 : rankBefore s b c) : rankBefore s a c := by
  rcases h1 with h1 | ⟨e1, q1⟩
  · rcases h2 with h2 | ⟨e2, q2⟩
    · exact Or.inl (cps_lt_trans _ _ _ h1 h2)
    · exact Or.inl (e2 ▸ h1)
  · rcases h2 with h2 | ⟨e2, q2⟩
    · exact Or.inl (by rw [e1]; exact h2)
    · exact Or.inr ⟨e1.trans e2, q1.trans q2⟩

theorem insertRanked_mem (s : RState) (id x : Nat) :
    ∀ ms, x ∈ insertRanked s id ms ↔ x = id ∨ x ∈ ms
  | [] => by simp [insertRanked]
  | m :: ms => by
    unfold insertRanked
    split_ifs with h
    · simp only [List.mem_cons, insertRanked_mem s id x ms]
      tauto
    · simp only [List.mem_cons]

theorem insertRanked_nodup (s : RState) (id : Nat) :
    ∀ ms, ms.Nodup → id ∉ ms → (insertRanked s id ms).Nodup
  | [] => fun _ _ => by simp [insertRanked]
  | m :: ms => fun hnd hid => by
    rw [List.nodup_cons] at hnd
    unfold insertRanked
    split_ifs with h
    · rw [List.nodup_cons]
      constructor
      · intro hmem
        rw [insertRanked_mem] at hmem
        rcases hmem with h1 | h1
        · exact hid (by rw [← h1]; exact List.mem_cons_self m ms)
        · exact hnd.1 h1
      · exact insertRanked_nodup s id ms hnd.2
          (fun hx => hid (List.mem_cons_of_mem _ hx))
    · rw [List.nodup_cons]
      exact ⟨hid, List.nodup_cons.mpr hnd⟩

/-- Rank-insertion preserves sortedness when the inserted matcher carries a
strictly fresher insertion tick than every matcher already present. -/
theorem insertRanked_pairwise (s : RState) (id : Nat) :
    ∀ ms, ms.Pairwise (rankBefore s) → (∀ m ∈ ms, seqOf s m < seqOf s id) →
      (insertRanked s id ms).Pairwise (rankBefore s)
  | [] => fun _ _ => by simp [insertRanked]
  | m :: ms => fun hp hf => by
    rw [List.pairwise_cons] at hp
    unfold insertRanked
    split_ifs with h
    · rw [List.pairwise_cons]
      constructor
      · intro x hx
        rw [insertRanked_mem] at hx
        rcases hx with rfl | hx
        · rcases cps_cases (scoreOf s x) (scoreOf s m) with hc | hc | hc
          · rw [hc] at h; exact absurd h (by omega)
          · exact Or.inr ⟨((cps_zero _ _).mp hc).symm,
              hf m (List.mem_cons_self m ms)⟩
          · refine Or.inl ?_
            rw [show comparePathParserScore (scoreOf s m) (scoreOf s x) =
              -comparePathParserScore (scoreOf s x) (scoreOf s m) from
              cps_neg _ _, hc]
            omega
        · exact hp.1 x hx
      · exact insertRanked_pairwise s id ms hp.2
          (fun x hx => hf x (List.mem_cons_of_mem _ hx))
    · rw [List.pairwise_cons]
      constructor
      · intro x hx
        rcases List.mem_cons.mp hx with rfl | hx
        · exact Or.inl (by omega)
        · exact rankBefore_trans s id m x (Or.inl (by omega)) (hp.1 x hx)
      · rw [List.pairwise_cons]
        exact hp

end Reg

namespace Reg

/-- The fields of an arena slot that ranking depends on (compiled score and
insertion tick), read through `getElem?` so out-of-range slots compare as
`none`. -/
def sig (st : List MNode) (i : Nat) : Option (List Int × Nat) :=
  (st[i]?).map (fun n => (n.score, n.seq))

/-- The fields of an arena slot that the alias-record walk depends on. -/
def asig (st : List MNode) (i : Nat) : Option (Option Nat × Option Nat) :=
  (st[i]?).map (fun n => (n.aliasOf, n.parent))

theorem nodeOf_getD (s : RState) (i : Nat) :
    nodeOf s i = (s.store[i]?).getD default := by
  simp [nodeOf, List.getD_eq_getElem?_getD]

theorem score_seq_of_sig {s t : RState} {i : Nat}
    (h : sig t.store i = sig s.store i) :
    scoreOf t i = scoreOf s i ∧ seqOf t i = seqOf s i := by
  simp only [sig] at h
  cases ht : t.store[i]? with
  | none =>
    cases hs : s.store[i]? with
    | none =>
      simp [scoreOf, seqOf, nodeOf_getD, ht, hs]
    | some n => rw [ht, hs] at h; simp at h
  | some n1 =>
    cases hs : s.store[i]? with
    | none => rw [ht, hs] at h; simp at h
    | some n2 =>
      rw [ht, hs] at h
      simp only [Option.map_some', Option.some.injEq, Prod.mk.injEq] at h
      simp [scoreOf, seqOf, nodeOf_getD, ht, hs, h.1, h.2]

/-- The alias-record walk only reads the `aliasOf` and `parent` fields of
slots at or below the queried index. -/
theorem aliasWalk_congr (st1 st2 : List MNode) :
    ∀ (f i : Nat), (∀ j, j ≤ i → asig st1 j = asig st2 j) →
      isAliasRecordFuel st1 f i = isAliasRecordFuel st2 f i
  | 0, _ => fun _ => rfl
  | f+1, i => fun h => by
    have hi := h i (le_refl i)
    simp only [asig] at hi
    unfold isAliasRecordFuel
    cases h1 : st1[i]? with
    | none =>
      cases h2 : st2[i]? with
      | none => rfl
      | some n => rw [h1, h2] at hi; simp at hi
    | some n1 =>
      cases h2 : st2[i]? with
      | none => rw [h1, h2] at hi; simp at hi
      | some n2 =>
        rw [h1, h2] at hi
        simp only [Option.map_some', Option.some.injEq, Prod.mk.injEq] at hi
        dsimp only
        rw [hi.1, hi.2]
        cases n2.parent with
        | none => rfl
        | some p =>
          by_cases hpi : p < i
          · simp only [if_pos hpi]
            rw [aliasWalk_congr st1 st2 f p
              (fun j hj => h j (hj.trans (Nat.le_of_lt hpi)))]
          · simp only [if_neg hpi]

theorem isAliasRecord_congr {s t : RState} (i : Nat)
    (h : ∀ j, j ≤ i → asig t.store j = asig s.store j) :
    isAliasRecord t.store i = isAliasRecord s.store i := by
  unfold isAliasRecord
  exact aliasWalk_congr t.store s.store (i + 1) i h

/-- Monotone progress made by one registry-growing operation: the arena and
tick only grow, existing slots keep their ranking and alias signature, and
any matcher in the resulting ranked sequence is either an old one or
points into the newly allocated part of the arena. -/
def AStep (s t : RState) : Prop :=
  s.store.length ≤ t.store.length ∧ s.tick ≤ t.tick ∧
    (∀ i, i < s.store.length → sig t.store i = sig s.store i ∧
      asig t.store i = asig s.store i) ∧
    (∀ m ∈ t.matchers, m ∈ s.matchers ∨ s.store.length ≤ m)

theorem astep_refl (s : RState) : AStep s s :=
  ⟨le_refl _, le_refl _, fun _ _ => ⟨rfl, rfl⟩, fun _ hm => Or.inl hm⟩

theorem astep_trans {a b c : RState} (h1 : AStep a b) (h2 : AStep b c) :
    AStep a c := by
  obtain ⟨l1, t1, g1, m1⟩ := h1
  obtain ⟨l2, t2, g2, m2⟩ := h2
  refine ⟨l1.trans l2, t1.trans t2, ?_, ?_⟩
  · intro i hi
    have h2i := g2 i (lt_of_lt_of_le hi l1)
    have h1i := g1 i hi
    exact ⟨h2i.1.trans h1i.1, h2i.2.trans h1i.2⟩
  · intro m hm
    rcases m2 m hm with h | h
    · exact m1 m h
    · exact Or.inr (l1.trans h)

/-- The shape of a pure removal: the arena and tick are untouched and the
ranked sequence and name index only lose entries (in order). -/
def RStep (s t : RState) : Prop :=
  t.store = s.store ∧ t.tick = s.tick ∧ t.matchers.Sublist s.matchers ∧
    t.matcherMap.Sublist s.matcherMap

theorem rstep_refl (s : RState) : RStep s s :=
  ⟨rfl, rfl, List.Sublist.refl _, List.Sublist.refl _⟩

theorem rstep_trans {a b c : RState} (h1 : RStep a b) (h2 : RStep b c) :
    RStep a c :=
  ⟨h2.1.trans h1.1, h2.2.1.trans h1.2.1, h2.2.2.1.trans h1.2.2.1,
    h2.2.2.2.trans h1.2.2.2⟩

theorem astep_of_rstep {s t : RState} (h : RStep s t) : AStep s t := by
  obtain ⟨hs, ht, hm, hp⟩ := h
  refine ⟨le_of_eq (by rw [hs]), le_of_eq ht.symm, ?_, ?_⟩
  · intro i _
    rw [hs]
    exact ⟨rfl, rfl⟩
  · intro m hm2
    exact Or.inl (hm.subset hm2)

/-- Generic preservation of a predicate and a transitive step relation
along a left fold. -/
theorem foldl_pres {σ α : Type} (P : σ → Prop) (R : σ → σ → Prop)
    (hrefl : ∀ s, R s s) (htrans : ∀ a b c, R a b → R b c → R a c)
    (f : σ → α → σ) (hf : ∀ st a, P st → P (f st a) ∧ R st (f st a)) :
    ∀ (l : List α) (s : σ), P s → P (l.foldl f s) ∧ R s (l.foldl f s)
  | [], s => fun h => ⟨h, hrefl s⟩
  | a :: l, s => fun h => by
    have h1 := hf s a h
    have h2 := foldl_pres P R hrefl htrans f hf l (f s a) h1.1
    exact ⟨h2.1, htrans _ _ _ h1.2 h2.2⟩

/-- The registry invariant: ranked matchers point into the arena, are
duplicate-free and sorted by the comparator with ties in insertion order;
every matcher's insertion tick is in the past; and the name index is
duplicate-free and maps names only to in-arena canonical (non-alias)
matchers. -/
def Inv (s : RState) : Prop :=
  (∀ m ∈ s.matchers, m < s.store.length) ∧
  s.matchers.Nodup ∧
  s.matchers.Pairwise (rankBefore s) ∧
  (∀ m ∈ s.matchers, seqOf s m < s.tick) ∧
  (∀ pr ∈ s.matcherMap, pr.2 < s.store.length ∧
    isAliasRecord s.store pr.2 = false) ∧
  (s.matcherMap.map Prod.fst).Nodup

theorem pairwise_rank_stable {s t : RState} :
    ∀ (ms : List Nat),
      (∀ m ∈ ms, scoreOf t m = scoreOf s m ∧ seqOf t m = seqOf s m) →
      ms.Pairwise (rankBefore s) → ms.Pairwise (rankBefore t)
  | [] => fun _ _ => List.Pairwise.nil
  | a :: l => fun h hp => by
    rw [List.pairwise_cons] at hp ⊢
    refine ⟨?_, pairwise_rank_stable l
      (fun m hm => h m (List.mem_cons_of_mem _ hm)) hp.2⟩
    intro b hb
    have ha := h a (List.mem_cons_self a l)
    have hbm := h b (List.mem_cons_of_mem _ hb)
    rcases hp.1 b hb with h1 | ⟨h1, h2⟩
    · exact Or.inl (by rw [ha.1, hbm.1]; exact h1)
    · exact Or.inr ⟨by rw [ha.1, hbm.1]; exact h1,
        by rw [ha.2, hbm.2]; exact h2⟩

theorem inv_of_rstep {s t : RState} (hr : RStep s t) (h : Inv s) : Inv t := by
  obtain ⟨hst, htk, hm, hmp⟩ := hr
  obtain ⟨h1, h2, h3, h4, h5, h6⟩ := h
  refine ⟨?_, h2.sublist hm, ?_, ?_, ?_, h6.sublist (hmp.map Prod.fst)⟩
  · intro m hmem
    rw [hst]
    exact h1 m (hm.subset hmem)
  · refine pairwise_rank_stable _ ?_ (h3.sublist hm)
    intro m _
    constructor <;> simp [scoreOf, seqOf, nodeOf, hst]
  · intro m hmem
    rw [htk]
    have := h4 m (hm.subset hmem)
    simpa [seqOf, nodeOf, hst] using this
  · intro pr hpr
    have := h5 pr (hmp.subset hpr)
    rw [hst]
    exact this

end Reg

namespace Reg

theorem nodeProj_congr {s t : RState} {i : Nat} {β : Type} (f : MNode → β)
    (h : (t.store[i]?).map f = (s.store[i]?).map f) :
    f (nodeOf t i) = f (nodeOf s i) := by
  simp only [nodeOf_getD]
  cases ht : t.store[i]? <;> cases hs : s.store[i]? <;> rw [ht, hs] at h <;>
    simp_all

theorem getElem?_set_other (st : List MNode) (p i : Nat) (x : MNode)
    (h : i ≠ p) : (st.set p x)[i]? = st[i]? :=
  List.getElem?_set_ne (Ne.symm h)

theorem map_proj_set {β : Type} (f : MNode → β) (st : List MNode) (p : Nat)
    (x : MNode) (hx : f x = f (st.getD p default)) :
    ∀ i : Nat, ((st.set p x)[i]?).map f = (st[i]?).map f := by
  intro i
  by_cases hip : i = p
  · subst hip
    by_cases hp : i < st.length
    · rw [List.getElem?_set_self hp]
      have hgot : st[i]? = some (st.getD i default) := by
        rw [List.getElem?_eq_getElem hp]
        simp [List.getD_eq_getElem?_getD, List.getElem?_eq_getElem hp]
      rw [hgot]
      simp [hx]
    · rw [List.set_eq_of_length_le (Nat.le_of_not_lt hp)]
  · rw [getElem?_set_other st p i x hip]

theorem sig_append (st ex : List MNode) (i : Nat) (h : i < st.length) :
    sig (st ++ ex) i = sig st i ∧ asig (st ++ ex) i = asig st i := by
  constructor <;> simp [sig, asig, List.getElem?_append_left h]

/-- Registry states that agree on slot signatures, matchers, name index and
tick satisfy the invariant together. -/
theorem inv_store_congr {s t : RState}
    (hlen : t.store.length = s.store.length)
    (hsig : ∀ i, sig t.store i = sig s.store i ∧ asig t.store i = asig s.store i)
    (hm : t.matchers = s.matchers) (hmp : t.matcherMap = s.matcherMap)
    (htk : t.tick = s.tick) (h : Inv s) : Inv t := by
  obtain ⟨h1, h2, h3, h4, h5, h6⟩ := h
  refine ⟨?_, ?_, ?_, ?_, ?_, ?_⟩
  · intro m hmem
    rw [hlen]
    exact h1 m (hm ▸ hmem)
  · rw [hm]; exact h2
  · rw [hm]
    exact pairwise_rank_stable _ (fun m _ => score_seq_of_sig (hsig m).1) h3
  · intro m hmem
    rw [htk, (score_seq_of_sig (hsig m).1).2]
    exact h4 m (hm ▸ hmem)
  · intro pr hpr
    have hh := h5 pr (hmp ▸ hpr)
    refine ⟨by rw [hlen]; exact hh.1, ?_⟩
    rw [isAliasRecord_congr pr.2 (fun j _ => (hsig j).2)]
    exact hh.2
  · rw [hmp]; exact h6

theorem pushChild_sig (s : RState) (p c : Nat) :
    ∀ i : Nat, sig (pushChild s p c).store i = sig s.store i ∧
      asig (pushChild s p c).store i = asig s.store i := by
  intro i
  constructor
  · exact map_proj_set (fun n => (n.score, n.seq)) s.store p
      { nodeOf s p with children := (nodeOf s p).children ++ [c] } rfl i
  · exact map_proj_set (fun n => (n.aliasOf, n.parent)) s.store p
      { nodeOf s p with children := (nodeOf s p).children ++ [c] } rfl i

theorem pushAliasM_sig (s : RState) (o a : Nat) :
    ∀ i : Nat, sig (pushAliasM s o a).store i = sig s.store i ∧
      asig (pushAliasM s o a).store i = asig s.store i := by
  intro i
  constructor
  · exact map_proj_set (fun n => (n.score, n.seq)) s.store o
      { nodeOf s o with aliasList := (nodeOf s o).aliasList ++ [a] } rfl i
  · exact map_proj_set (fun n => (n.aliasOf, n.parent)) s.store o
      { nodeOf s o with aliasList := (nodeOf s o).aliasList ++ [a] } rfl i

theorem pushChild_pres (s : RState) (p c : Nat) (h : Inv s) :
    Inv (pushChild s p c) ∧ AStep s (pushChild s p c) := by
  have hlen : (pushChild s p c).store.length = s.store.length :=
    List.length_set _ _ _
  refine ⟨inv_store_congr hlen (pushChild_sig s p c) rfl rfl rfl h, ?_⟩
  exact ⟨le_of_eq hlen.symm, le_refl _, fun i _ => pushChild_sig s p c i,
    fun m hm => Or.inl hm⟩

theorem pushAliasM_pres (s : RState) (o a : Nat) (h : Inv s) :
    Inv (pushAliasM s o a) ∧ AStep s (pushAliasM s o a) := by
  have hlen : (pushAliasM s o a).store.length = s.store.length :=
    List.length_set _ _ _
  refine ⟨inv_store_congr hlen (pushAliasM_sig s o a) rfl rfl rfl h, ?_⟩
  exact ⟨le_of_eq hlen.symm, le_refl _, fun i _ => pushAliasM_sig s o a i,
    fun m hm => Or.inl hm⟩

theorem append_pres (s : RState) (node : MNode) (h : Inv s) :
    Inv { s with store := s.store ++ [node] } ∧
      AStep s { s with store := s.store ++ [node] } := by
  obtain ⟨h1, h2, h3, h4, h5, h6⟩ := h
  constructor
  · refine ⟨?_, h2, ?_, ?_, ?_, h6⟩
    · intro m hm
      simp only [List.length_append, List.length_cons, List.length_nil]
      exact Nat.lt_succ_of_lt (h1 m hm)
    · refine pairwise_rank_stable _ ?_ h3
      intro m hm
      exact score_seq_of_sig (sig_append s.store [node] m (h1 m hm)).1
    · intro m hm
      rw [(score_seq_of_sig (sig_append s.store [node] m (h1 m hm)).1).2]
      exact h4 m hm
    · intro pr hpr
      have hh := h5 pr hpr
      constructor
      · simp only [List.length_append, List.length_cons, List.length_nil]
        exact Nat.lt_succ_of_lt hh.1
      · rw [show isAliasRecord ({ s with store := s.store ++ [node] } : RState).store pr.2
          = isAliasRecord s.store pr.2 from isAliasRecord_congr pr.2
          (fun j hj => (sig_append s.store [node] j (lt_of_le_of_lt hj hh.1)).2)]
        exact hh.2
  · refine ⟨?_, le_refl _, ?_, fun m hm => Or.inl hm⟩
    · simp
    · intro i hi
      exact sig_append s.store [node] i hi

/-- `createRouteRecordMatcher` preserves the invariant, makes monotone
progress, and returns the freshly allocated identifier up front. -/
theorem create_pres (s : RState) (path : String) (name : Option String)
    (parent aliasOf : Option Nat) (h : Inv s) :
    Inv (createRouteRecordMatcher s path name parent aliasOf).1 ∧
    AStep s (createRouteRecordMatcher s path name parent aliasOf).1 ∧
    (createRouteRecordMatcher s path name parent aliasOf).2 = s.store.length ∧
    (createRouteRecordMatcher s path name parent aliasOf).1.store.length
      = s.store.length + 1 ∧
    (createRouteRecordMatcher s path name parent aliasOf).1.matchers
      = s.matchers ∧
    (createRouteRecordMatcher s path name parent aliasOf).1.matcherMap
      = s.matcherMap ∧
    (createRouteRecordMatcher s path name parent aliasOf).1.tick = s.tick := by
  unfold createRouteRecordMatcher
  dsimp only
  cases parent with
  | none =>
    dsimp only
    exact ⟨(append_pres s _ h).1, (append_pres s _ h).2, rfl, by simp, rfl,
      rfl, rfl⟩
  | some p =>
    dsimp only
    split_ifs with hcond
    · exact ⟨(pushChild_pres _ p s.store.length (append_pres s _ h).1).1,
        astep_trans (append_pres s _ h).2
          (pushChild_pres _ p s.store.length (append_pres s _ h).1).2,
        rfl, by simp [pushChild, setNode], rfl, rfl, rfl⟩
    · exact ⟨(append_pres s _ h).1, (append_pres s _ h).2, rfl, by simp, rfl,
        rfl, rfl⟩

theorem spliceOutJs_sublist (ms : List Nat) (id : Nat) :
    (spliceOutJs ms id).Sublist ms := by
  unfold spliceOutJs
  split_ifs
  · exact List.erase_sublist id ms
  · exact List.dropLast_sublist ms

/-- A removal never touches the arena or the tick and only drops entries
from the ranked sequence and the name index. -/
theorem removeRouteFuel_rstep : ∀ (F : Nat) (ref : MatcherRef) (s : RState),
    RStep s (removeRouteFuel F ref s)
  | 0, _, s => rstep_refl s
  | F+1, .byName n, s => by
    have hfold : ∀ (l : List Nat) (st : RState),
        RStep st (l.foldl (fun st2 c => removeRouteFuel F (.byRef c) st2) st) := by
      intro l
      induction l with
      | nil => intro st; exact rstep_refl st
      | cons c cs ih =>
        intro st
        exact rstep_trans (removeRouteFuel_rstep F (.byRef c) st) (ih _)
    unfold removeRouteFuel
    cases h : mapGet s.matcherMap n with
    | none => exact rstep_refl s
    | some id =>
      dsimp only
      refine rstep_trans (b := ⟨s.store, spliceOutJs s.matchers id,
        mapDelete s.matcherMap n, s.tick⟩)
        ⟨rfl, rfl, spliceOutJs_sublist _ _, List.filter_sublist _⟩
        (rstep_trans (hfold _ _) (hfold _ _))
  | F+1, .byRef id, s => by
    have hfold : ∀ (l : List Nat) (st : RState),
        RStep st (l.foldl (fun st2 c => removeRouteFuel F (.byRef c) st2) st) := by
      intro l
      induction l with
      | nil => intro st; exact rstep_refl st
      | cons c cs ih =>
        intro st
        exact rstep_trans (removeRouteFuel_rstep F (.byRef c) st) (ih _)
    unfold removeRouteFuel
    split_ifs with hcont
    · dsimp only
      cases hn : (nodeOf ⟨s.store, s.matchers.erase id, s.matcherMap, s.tick⟩
          id).name with
      | some n =>
        refine rstep_trans (b := ⟨s.store, s.matchers.erase id,
          mapDelete s.matcherMap n, s.tick⟩)
          ⟨rfl, rfl, List.erase_sublist id s.matchers, List.filter_sublist _⟩
          (rstep_trans (hfold _ _) (hfold _ _))
      | none =>
        refine rstep_trans (b := ⟨s.store, s.matchers.erase id,
          s.matcherMap, s.tick⟩)
          ⟨rfl, rfl, List.erase_sublist id s.matchers, List.Sublist.refl _⟩
          (rstep_trans (hfold _ _) (hfold _ _))
    · exact rstep_refl s

theorem removeRoute_rstep (ref : MatcherRef) (s : RState) :
    RStep s (removeRoute ref s) :=
  removeRouteFuel_rstep s.store.length ref s

end Reg

namespace Reg

theorem mapSet_keys_nodup (m : List (String × Nat)) (n : String) (id : Nat)
    (h : (m.map Prod.fst).Nodup) : ((mapSet m n id).map Prod.fst).Nodup := by
  unfold mapSet
  rw [List.map_cons, List.nodup_cons]
  constructor
  · intro hmem
    rw [List.mem_map] at hmem
    obtain ⟨pr, hpr, hfst⟩ := hmem
    rw [List.mem_filter] at hpr
    have := hpr.2
    simp only [decide_eq_true_eq, beq_iff_eq] at this
    exact this (by rw [hfst])
  · exact h.sublist ((List.filter_sublist m).map Prod.fst)

theorem mapSet_mem {m : List (String × Nat)} {n : String} {id : Nat}
    {pr : String × Nat} (h : pr ∈ mapSet m n id) :
    pr = (n, id) ∨ pr ∈ m := by
  unfold mapSet at h
  rcases List.mem_cons.mp h with h | h
  · exact Or.inl h
  · exact Or.inr (List.mem_filter.mp h).1

/-- The state of `insertMatcher` after recording the insertion tick,
bumping the tick and rank-inserting, before the name-index step. -/
def rankState (s : RState) (id : Nat) : RState :=
  ⟨s.store.set id { nodeOf s id with seq := s.tick },
    insertRanked
      ⟨s.store.set id { nodeOf s id with seq := s.tick }, s.matchers,
        s.matcherMap, s.tick + 1⟩ id s.matchers,
    s.matcherMap, s.tick + 1⟩

theorem insertMatcher_eq (s : RState) (id : Nat) :
    insertMatcher s id =
      match (nodeOf (rankState s id) id).name with
      | some n =>
        if isAliasRecord (rankState s id).store id then rankState s id
        else ⟨(rankState s id).store, (rankState s id).matchers,
          mapSet (rankState s id).matcherMap n id, (rankState s id).tick⟩
      | none => rankState s id := rfl

/-- `insertMatcher` preserves the invariant when applied to a fresh in-arena
matcher: the result ranks it among the matchers, only the inserted slot
records its insertion tick, and the name index is extended only with the
inserted canonical matcher. -/
theorem insertMatcher_pres (s : RState) (id : Nat) (h : Inv s)
    (hid : id < s.store.length) (hnm : id ∉ s.matchers) :
    Inv (insertMatcher s id) ∧
      (insertMatcher s id).store.length = s.store.length ∧
      s.tick ≤ (insertMatcher s id).tick ∧
      (∀ i : Nat, i ≠ id → sig (insertMatcher s id).store i = sig s.store i) ∧
      (∀ i : Nat, asig (insertMatcher s id).store i = asig s.store i) ∧
      (∀ m ∈ (insertMatcher s id).matchers, m = id ∨ m ∈ s.matchers) := by
  obtain ⟨h1, h2, h3, h4, h5, h6⟩ := h
  have hasig : ∀ i : Nat, asig (rankState s id).store i = asig s.store i := by
    intro i
    exact map_proj_set (fun n => (n.aliasOf, n.parent)) s.store id
      { nodeOf s id with seq := s.tick } rfl i
  have hscore : ∀ i : Nat, scoreOf (rankState s id) i = scoreOf s i := by
    intro i
    exact nodeProj_congr MNode.score
      (map_proj_set MNode.score s.store id
        { nodeOf s id with seq := s.tick } rfl i)
  have hsig_ne : ∀ i : Nat, i ≠ id →
      sig (rankState s id).store i = sig s.store i := by
    intro i hi
    simp only [sig]
    rw [show (rankState s id).store
      = s.store.set id { nodeOf s id with seq := s.tick } from rfl,
      getElem?_set_other _ id i _ hi]
  have hseq_ne : ∀ i : Nat, i ≠ id →
      seqOf (rankState s id) i = seqOf s i := by
    intro i hi
    simp only [seqOf, nodeOf_getD]
    rw [show (rankState s id).store
      = s.store.set id { nodeOf s id with seq := s.tick } from rfl,
      getElem?_set_other _ id i _ hi]
  have hseq_id : seqOf (rankState s id) id = s.tick := by
    simp only [seqOf, nodeOf_getD]
    rw [show (rankState s id).store
      = s.store.set id { nodeOf s id with seq := s.tick } from rfl,
      List.getElem?_set_self hid]
    rfl
  have hlen : (rankState s id).store.length = s.store.length :=
    List.length_set _ _ _
  have htick : (rankState s id).tick = s.tick + 1 := rfl
  have hmap : (rankState s id).matcherMap = s.matcherMap := rfl
  have hmem3 : ∀ m ∈ (rankState s id).matchers, m = id ∨ m ∈ s.matchers := by
    intro m hm
    exact (insertRanked_mem
      ⟨s.store.set id { nodeOf s id with seq := s.tick }, s.matchers,
        s.matcherMap, s.tick + 1⟩ id m s.matchers).mp hm
  have hpw : s.matchers.Pairwise (rankBefore (rankState s id)) := by
    refine pairwise_rank_stable (t := rankState s id) s.matchers ?_ h3
    intro m hm
    exact ⟨hscore m, hseq_ne m (fun he => hnm (he ▸ hm))⟩
  have hfresh : ∀ m ∈ s.matchers,
      seqOf (rankState s id) m < seqOf (rankState s id) id := by
    intro m hm
    rw [hseq_ne m (fun he => hnm (he ▸ hm)), hseq_id]
    exact h4 m hm
  have hinv : Inv (rankState s id) := by
    refine ⟨?_, ?_, ?_, ?_, ?_, ?_⟩
    · intro m hm
      rw [hlen]
      rcases hmem3 m hm with rfl | hm2
      · exact hid
      · exact h1 m hm2
    · exact insertRanked_nodup
        ⟨s.store.set id { nodeOf s id with seq := s.tick }, s.matchers,
          s.matcherMap, s.tick + 1⟩ id s.matchers h2 hnm
    · exact insertRanked_pairwise
        ⟨s.store.set id { nodeOf s id with seq := s.tick }, s.matchers,
          s.matcherMap, s.tick + 1⟩ id s.matchers hpw hfresh
    · intro m hm
      rw [htick]
      rcases hmem3 m hm with rfl | hm2
      · rw [hseq_id]
        omega
      · rw [hseq_ne m (fun he => hnm (he ▸ hm2))]
        have := h4 m hm2
        omega
    · intro pr hpr
      rw [hmap] at hpr
      have hh := h5 pr hpr
      refine ⟨by rw [hlen]; exact hh.1, ?_⟩
      rw [show isAliasRecord (rankState s id).store pr.2
        = isAliasRecord s.store pr.2 from
        isAliasRecord_congr pr.2 (fun j _ => hasig j)]
      exact hh.2
    · rw [hmap]
      exact h6
  rw [insertMatcher_eq]
  cases hname : (nodeOf (rankState s id) id).name with
  | none =>
    exact ⟨hinv, hlen, by rw [htick]; omega, hsig_ne, hasig, hmem3⟩
  | some n =>
    split_ifs with halias
    · exact ⟨hinv, hlen, by rw [htick]; omega, hsig_ne, hasig, hmem3⟩
    · have hfalse : isAliasRecord (rankState s id).store id = false := by
        cases hb : isAliasRecord (rankState s id).store id with
        | false => rfl
        | true => exact absurd hb halias
      obtain ⟨g1, g2, g3, g4, g5, g6⟩ := hinv
      refine ⟨⟨g1, g2, g3, g4, ?_, ?_⟩, hlen,
        by show s.tick ≤ (rankState s id).tick; rw [htick]; omega,
        hsig_ne, hasig, hmem3⟩
      · intro pr hpr
        rcases mapSet_mem hpr with rfl | hpr2
        · refine ⟨?_, hfalse⟩
          show id < (rankState s id).store.length
          rw [hlen]
          exact hid
        · exact g5 pr hpr2
      · exact mapSet_keys_nodup _ n id g6

end Reg


namespace Reg

theorem entryStep2_pres (name : Option String) (original : Option Nat)
    (originalVar originalMatcher : Option Nat) (cr : RState × Nat)
    (h : Inv cr.1) :
    Inv (entryStep2 name original originalVar originalMatcher cr).1 ∧
      AStep cr.1 (entryStep2 name original originalVar originalMatcher cr).1 ∧
      (entryStep2 name original originalVar originalMatcher cr).1.store.length
        = cr.1.store.length ∧
      (∀ m ∈ (entryStep2 name original originalVar originalMatcher cr).1.matchers,
        m ∈ cr.1.matchers) := by
  cases originalVar with
  | some o =>
    dsimp only [entryStep2]
    exact ⟨(pushAliasM_pres cr.1 o cr.2 h).1, (pushAliasM_pres cr.1 o cr.2 h).2,
      List.length_set _ _ _, fun m hm => hm⟩
  | none =>
    dsimp only [entryStep2]
    cases name with
    | none =>
      dsimp only
      split_ifs with hom
      · exact ⟨(pushAliasM_pres cr.1 _ cr.2 h).1,
          (pushAliasM_pres cr.1 _ cr.2 h).2, List.length_set _ _ _,
          fun m hm => hm⟩
      · exact ⟨h, astep_refl cr.1, rfl, fun m hm => hm⟩
    | some n =>
      dsimp only
      split_ifs with hom hc1 hc2
      · have hp := pushAliasM_pres cr.1 (originalMatcher.getD cr.2) cr.2 h
        have hr := removeRoute_rstep (.byName n)
          (pushAliasM cr.1 (originalMatcher.getD cr.2) cr.2)
        refine ⟨inv_of_rstep hr hp.1, astep_trans hp.2 (astep_of_rstep hr), ?_, ?_⟩
        · rw [hr.1]
          exact List.length_set _ _ _
        · intro m hm
          exact hr.2.2.1.subset hm
      · have hp := pushAliasM_pres cr.1 (originalMatcher.getD cr.2) cr.2 h
        exact ⟨hp.1, hp.2, List.length_set _ _ _, fun m hm => hm⟩
      · have hr := removeRoute_rstep (.byName n) cr.1
        refine ⟨inv_of_rstep hr h, astep_of_rstep hr, ?_, ?_⟩
        · rw [hr.1]
        · intro m hm
          exact hr.2.2.1.subset hm
      · exact ⟨h, astep_refl cr.1, rfl, fun m hm => hm⟩

theorem addRouteEntry_pres
    (rec : Raw → Option Nat → Option Nat → RState → RState × Option Nat)
    (hrec : ∀ (r : Raw) (p o : Option Nat) (st : RState), Inv st →
      Inv (rec r p o st).1 ∧ AStep st (rec r p o st).1)
    (parent : Option Nat) (name : Option String) (original : Option Nat)
    (children : RawList) (acc : RState × Option Nat × Option Nat)
    (entry : String × Bool) (h : Inv acc.1) :
    Inv (addRouteEntry rec parent name original children acc entry).1 ∧
      AStep acc.1 (addRouteEntry rec parent name original children acc entry).1 := by
  obtain ⟨s0, ov, om⟩ := acc
  dsimp only at h
  dsimp only [addRouteEntry]
  obtain ⟨hInvA, hStepA, hid2, hlenA, hmA, hmapA, htkA⟩ :=
    create_pres s0 (entryPath parent s0 entry.1) name parent
      (entryAliasOf entry.2 original om) h
  obtain ⟨hInvB, hStepB, hlenB, hmB⟩ :=
    entryStep2_pres name original ov om
      (createRouteRecordMatcher s0 (entryPath parent s0 entry.1) name parent
        (entryAliasOf entry.2 original om)) hInvA
  have hfold := foldl_pres Inv AStep astep_refl
    (fun a b c h1 h2 => astep_trans h1 h2)
    (fun st ci => (rec ci.2
      (some (createRouteRecordMatcher s0 (entryPath parent s0 entry.1) name
        parent (entryAliasOf entry.2 original om)).2)
      (ov.bind (fun o => (nodeOf st o).children[ci.1]?)) st).1)
    (fun st ci hI => hrec _ _ _ st hI)
    children.toList.enum
    (entryStep2 name original ov om
      (createRouteRecordMatcher s0 (entryPath parent s0 entry.1) name parent
        (entryAliasOf entry.2 original om))).1
    hInvB
  set cr := createRouteRecordMatcher s0 (entryPath parent s0 entry.1) name
    parent (entryAliasOf entry.2 original om) with hcrdef
  set st2 := entryStep2 name original ov om cr with hst2def
  set s3 := children.toList.enum.foldl
    (fun st ci => (rec ci.2 (some cr.2)
      (ov.bind (fun o => (nodeOf st o).children[ci.1]?)) st).1) st2.1
    with hs3def
  have hcr2lt : cr.2 < s3.store.length := by
    have h1 : st2.1.store.length ≤ s3.store.length := hfold.2.1
    rw [hlenB, hlenA] at h1
    rw [hid2]
    omega
  have hnotin : cr.2 ∉ s3.matchers := by
    intro hmem
    rcases hfold.2.2.2.2 cr.2 hmem with hin | hge
    · have hin2 := hmB cr.2 hin
      rw [hmA] at hin2
      have := h.1 cr.2 hin2
      rw [hid2] at this
      omega
    · rw [hlenB, hlenA, hid2] at hge
      omega
  obtain ⟨hInvD, hlenD, htkD, hsigD, hasigD, hmemD⟩ :=
    insertMatcher_pres s3 cr.2 hfold.1 hcr2lt hnotin
  have hcomp : AStep s0 s3 := astep_trans hStepA (astep_trans hStepB hfold.2)
  refine ⟨hInvD, ?_, ?_, ?_, ?_⟩
  · rw [hlenD]
    exact hcomp.1
  · exact hcomp.2.1.trans htkD
  · intro i hi
    have hne : i ≠ cr.2 := by
      rw [hid2]
      omega
    have hs := hcomp.2.2.1 i hi
    exact ⟨(hsigD i hne).trans hs.1, (hasigD i).trans hs.2⟩
  · intro m hm
    rcases hmemD m hm with rfl | hm2
    · exact Or.inr (by rw [hid2])
    · exact hcomp.2.2.2 m hm2

/-- Every `addRoute` call preserves the registry invariant and makes
monotone progress. -/
theorem addRouteAuxF_pres : ∀ (fuel : Nat) (r : Raw)
    (parent original : Option Nat) (s : RState), Inv s →
    Inv (addRouteAuxF fuel r parent original s).1 ∧
      AStep s (addRouteAuxF fuel r parent original s).1
  | 0, _, _, _, s => fun h => ⟨h, astep_refl s⟩
  | fuel+1, .mk path name aliasPaths children, parent, original, s => fun h => by
    have hrec : ∀ (r2 : Raw) (p o : Option Nat) (st : RState), Inv st →
        Inv (addRouteAuxF fuel r2 p o st).1 ∧
          AStep st (addRouteAuxF fuel r2 p o st).1 :=
      fun r2 p o st => addRouteAuxF_pres fuel r2 p o st
    have hfold := foldl_pres (σ := RState × Option Nat × Option Nat)
      (fun acc => Inv acc.1) (fun a b => AStep a.1 b.1)
      (fun a => astep_refl a.1) (fun a b c h1 h2 => astep_trans h1 h2)
      (addRouteEntry (addRouteAuxF fuel) parent name original children)
      (fun acc entry hI => addRouteEntry_pres (addRouteAuxF fuel) hrec parent
        name original children acc entry hI)
      ((path, true) :: aliasPaths.map (fun a => (a, false))) (s, original, none) h
    exact ⟨hfold.1, hfold.2⟩

theorem inv_empty : Inv emptyRegistry := by
  refine ⟨?_, ?_, ?_, ?_, ?_, ?_⟩ <;> simp [emptyRegistry]

theorem inv_applyROp (s : RState) (op : ROp) (h : Inv s) :
    Inv (applyROp s op) := by
  cases op with
  | add pn r =>
    dsimp only [applyROp, addRouteAux]
    exact (addRouteAuxF_pres (rawSize r) r _ none s h).1
  | remove n =>
    dsimp only [applyROp]
    cases hm : mapGet s.matcherMap n with
    | some m => exact inv_of_rstep (removeRoute_rstep (.byRef m) s) h
    | none => exact h

/-- The registry invariant holds after every sequence of router-level
operations. -/
theorem inv_runROps (ops : List ROp) : Inv (runROps ops) := by
  unfold runROps
  exact (foldl_pres Inv (fun _ _ => True) (fun _ => trivial)
    (fun _ _ _ _ _ => trivial) applyROp
    (fun st op hI => ⟨inv_applyROp st op hI, trivial⟩) ops emptyRegistry
    inv_empty).1

end Reg

namespace Reg

/-- A two-route registry: static `/fixed` registered before dynamic `/:a`. -/
def regFP : RState :=
  runROps [.add none (.mk "/fixed" none [] .nil), .add none (.mk "/:a" none [] .nil)]

/-- The same two sibling routes registered in the opposite order. -/
def regPF : RState :=
  runROps [.add none (.mk "/:a" none [] .nil), .add none (.mk "/fixed" none [] .nil)]

/-- C8: after every sequence of addRoute and removeRoute operations the
ranked matcher sequence is sorted descending by specificity score (each
earlier matcher ranks strictly before each later one per the score
comparator, equal scores ordered by insertion tick, i.e. insertion order),
is duplicate-free, and the name index holds at most one entry per name,
each pointing at an in-range canonical (non-alias) matcher; concretely,
for sibling routes `/:a` and `/fixed`, resolving the path `/fixed` selects
the static `/fixed` matcher under either registration order. -/
theorem c8_registry_invariants (ops : List ROp) :
    ((runROps ops).matchers.Pairwise (rankBefore (runROps ops)) ∧
      (runROps ops).matchers.Nodup ∧
      ((runROps ops).matcherMap.map Prod.fst).Nodup ∧
      (∀ pr ∈ (runROps ops).matcherMap, pr.2 < (runROps ops).store.length ∧
        isAliasRecord (runROps ops).store pr.2 = false)) ∧
    (resolve regFP (.byPath "/fixed") curLoc0
        = .ok { name := none, path := "/fixed", params := [], matched := [0] } ∧
      (nodeOf regFP 0).path = "/fixed" ∧
      resolve regPF (.byPath "/fixed") curLoc0
        = .ok { name := none, path := "/fixed", params := [], matched := [1] } ∧
      (nodeOf regPF 1).path = "/fixed") := by
  obtain ⟨i1, i2, i3, i4, i5, i6⟩ := inv_runROps ops
  exact ⟨⟨i3, i2, i6, i5⟩, rfl, rfl, rfl, rfl⟩

end Reg

namespace Reg

def catMap {α β : Type} (f : α → List β) : List α → List β
  | [] => []
  | a :: l => f a ++ catMap f l

theorem mem_catMap {α β : Type} (f : α → List β) (x : β) :
    ∀ l, x ∈ catMap f l ↔ ∃ a ∈ l, x ∈ f a
  | [] => by simp [catMap]
  | a :: l => by
    simp only [catMap, List.mem_append, mem_catMap f x l, List.mem_cons]
    constructor
    · rintro (h | ⟨b, hb, hx⟩)
      · exact ⟨a, Or.inl rfl, h⟩
      · exact ⟨b, Or.inr hb, hx⟩
    · rintro ⟨b, hb | hb, hx⟩
      · exact Or.inl (hb ▸ hx)
      · exact Or.inr ⟨b, hb, hx⟩

/-- The identifiers a removal with the given fuel visits starting from a
matcher: the matcher itself, then recursively the owned children and alias
matchers recorded in the arena (which a removal never mutates). -/
def ownedIds (st : List MNode) : Nat → Nat → List Nat
  | 0, _ => []
  | fuel+1, id =>
    id :: catMap (ownedIds st fuel)
      ((st.getD id default).children ++ (st.getD id default).aliasList)

/-- Matcher removal preserves duplicate-freeness of the ranked sequence. -/
theorem removeRouteFuel_nodup (F : Nat) (ref : MatcherRef) (s : RState)
    (h : s.matchers.Nodup) : (removeRouteFuel F ref s).matchers.Nodup :=
  h.sublist (removeRouteFuel_rstep F ref s).2.2.1

end Reg

namespace Reg

/-- Folding removals over a list of roots with pairwise-disjoint owned
closures removes exactly the union of the closures. -/
theorem removeFold_char (F : Nat)
    (hrec : ∀ (id : Nat) (s : RState), s.matchers.Nodup →
      (∀ x ∈ ownedIds s.store F id, x ∈ s.matchers) →
      (ownedIds s.store F id).Nodup →
      ∀ x : Nat, x ∈ (removeRouteFuel F (.byRef id) s).matchers ↔
        (x ∈ s.matchers ∧ x ∉ ownedIds s.store F id)) :
    ∀ (l : List Nat) (s : RState), s.matchers.Nodup →
      (∀ x ∈ catMap (ownedIds s.store F) l, x ∈ s.matchers) →
      (catMap (ownedIds s.store F) l).Nodup →
      ∀ x : Nat,
        x ∈ (l.foldl (fun st c => removeRouteFuel F (.byRef c) st) s).matchers ↔
          (x ∈ s.matchers ∧ x ∉ catMap (ownedIds s.store F) l)
  | [], s => fun _ _ _ x => by simp [catMap]
  | c :: l, s => fun hnd hsub hond x => by
    simp only [catMap] at hsub hond
    rw [List.nodup_append] at hond
    obtain ⟨ndc, ndl, hdisj⟩ := hond
    have hstep := removeRouteFuel_rstep F (.byRef c) s
    have hchar1 := hrec c s hnd
      (fun y hy => hsub y (List.mem_append_left _ hy)) ndc
    have hnd1 : (removeRouteFuel F (.byRef c) s).matchers.Nodup :=
      hnd.sublist hstep.2.2.1
    have hsub2 : ∀ y ∈ catMap
        (ownedIds (removeRouteFuel F (.byRef c) s).store F) l,
        y ∈ (removeRouteFuel F (.byRef c) s).matchers := by
      intro y hy
      rw [hstep.1] at hy
      rw [hchar1 y]
      exact ⟨hsub y (List.mem_append_right _ hy), fun hyc => hdisj hyc hy⟩
    have hond2 : (catMap
        (ownedIds (removeRouteFuel F (.byRef c) s).store F) l).Nodup := by
      rw [hstep.1]
      exact ndl
    have hIH := removeFold_char F hrec l (removeRouteFuel F (.byRef c) s)
      hnd1 hsub2 hond2 x
    rw [hstep.1] at hIH
    rw [hchar1 x] at hIH
    rw [List.foldl_cons]
    rw [hIH]
    simp only [catMap, List.mem_append]
    tauto

/-- A by-reference removal whose owned closure is present (in full) in the
ranked sequence and duplicate-free removes exactly that closure from the
ranked sequence. -/
theorem removeRef_char : ∀ (F id : Nat) (s : RState), s.matchers.Nodup →
    (∀ x ∈ ownedIds s.store F id, x ∈ s.matchers) →
    (ownedIds s.store F id).Nodup →
    ∀ x : Nat, x ∈ (removeRouteFuel F (.byRef id) s).matchers ↔
      (x ∈ s.matchers ∧ x ∉ ownedIds s.store F id)
  | 0, id, s => fun _ _ _ x => by simp [removeRouteFuel, ownedIds]
  | F+1, id, s => fun hnd hsub hond x => by
    have hidm : id ∈ s.matchers := hsub id (by simp [ownedIds])
    have hcont : s.matchers.contains id = true := by simpa using hidm
    have key : ∀ (t : RState), t.store = s.store →
        t.matchers = s.matchers.erase id →
        ∀ y : Nat, y ∈ (List.foldl (fun st a => removeRouteFuel F (.byRef a) st)
            (List.foldl (fun st c => removeRouteFuel F (.byRef c) st) t
              (nodeOf t id).children)
            (nodeOf (List.foldl (fun st c => removeRouteFuel F (.byRef c) st) t
              (nodeOf t id).children) id).aliasList).matchers ↔
          (y ∈ s.matchers ∧ y ∉ ownedIds s.store (F+1) id) := by
      intro t hstore hmatch y
      have hnode : nodeOf t id = s.store.getD id default := by
        show t.store.getD id default = s.store.getD id default
        rw [hstore]
      have htnd : t.matchers.Nodup := by
        rw [hmatch]
        exact hnd.sublist (List.erase_sublist id s.matchers)
      simp only [ownedIds] at hsub hond ⊢
      rw [List.nodup_cons] at hond
      have hfoldst := (foldl_pres (fun _ => True) RStep rstep_refl
        (fun _ _ _ => rstep_trans) (fun st c => removeRouteFuel F (.byRef c) st)
        (fun st a _ => ⟨trivial, removeRouteFuel_rstep F (.byRef a) st⟩)
        (nodeOf t id).children t trivial).2.1
      have halias_eq : nodeOf (List.foldl
          (fun st c => removeRouteFuel F (.byRef c) st) t
          (nodeOf t id).children) id = nodeOf t id := by
        show (List.foldl (fun st c => removeRouteFuel F (.byRef c) st) t
          (nodeOf t id).children).store.getD id default
          = t.store.getD id default
        rw [hfoldst]
      rw [halias_eq, ← List.foldl_append, hnode]
      have hsub2 : ∀ z ∈ catMap (ownedIds t.store F)
          ((s.store.getD id default).children
            ++ (s.store.getD id default).aliasList), z ∈ t.matchers := by
        intro z hz
        rw [hstore] at hz
        rw [hmatch, hnd.mem_erase_iff]
        refine ⟨?_, hsub z (List.mem_cons_of_mem _ hz)⟩
        intro he
        exact hond.1 (he ▸ hz)
      have hond2 : (catMap (ownedIds t.store F)
          ((s.store.getD id default).children
            ++ (s.store.getD id default).aliasList)).Nodup := by
        rw [hstore]
        exact hond.2
      have hchar := removeFold_char F (fun id2 s2 => removeRef_char F id2 s2)
        ((s.store.getD id default).children
          ++ (s.store.getD id default).aliasList) t htnd hsub2 hond2 y
      rw [hchar, hstore, hmatch, hnd.mem_erase_iff]
      simp only [List.mem_cons]
      tauto
    unfold removeRouteFuel
    rw [if_pos hcont]
    exact key _ (by split <;> rfl) (by split <;> rfl) x

end Reg

namespace Reg

theorem removeFold_rstep (F : Nat) (l : List Nat) (u : RState) :
    RStep u (l.foldl (fun st c => removeRouteFuel F (.byRef c) st) u) :=
  (foldl_pres (fun _ => True) RStep rstep_refl (fun _ _ _ => rstep_trans)
    (fun st c => removeRouteFuel F (.byRef c) st)
    (fun st a _ => ⟨trivial, removeRouteFuel_rstep F (.byRef a) st⟩)
    l u trivial).2

/-- A by-name removal of a present name whose owned closure sits (in full,
duplicate-free) in the ranked sequence removes exactly that closure. -/
theorem removeByName_char (s : RState) (n : String) (t : Nat)
    (hnd : s.matchers.Nodup)
    (hname : mapGet s.matcherMap n = some t)
    (hlen : 0 < s.store.length)
    (hsub : ∀ x ∈ ownedIds s.store s.store.length t, x ∈ s.matchers)
    (hond : (ownedIds s.store s.store.length t).Nodup) :
    ∀ x : Nat, x ∈ (removeRoute (.byName n) s).matchers ↔
      (x ∈ s.matchers ∧ x ∉ ownedIds s.store s.store.length t) := by
  obtain ⟨G, hG⟩ : ∃ G, s.store.length = G + 1 :=
    ⟨s.store.length - 1, by omega⟩
  rw [hG] at hsub hond ⊢
  have htin : t ∈ s.matchers := hsub t (by simp [ownedIds])
  have hsp : spliceOutJs s.matchers t = s.matchers.erase t := by
    unfold spliceOutJs
    rw [if_pos (by simpa using htin)]
  intro x
  have key : ∀ (u : RState), u.store = s.store →
      u.matchers = s.matchers.erase t →
      ∀ y : Nat, y ∈ (List.foldl (fun st a => removeRouteFuel G (.byRef a) st)
          (List.foldl (fun st c => removeRouteFuel G (.byRef c) st) u
            (nodeOf u t).children)
          (nodeOf (List.foldl (fun st c => removeRouteFuel G (.byRef c) st) u
            (nodeOf u t).children) t).aliasList).matchers ↔
        (y ∈ s.matchers ∧ y ∉ ownedIds s.store (G+1) t) := by
    intro u hstore hmatch y
    have hnode : nodeOf u t = s.store.getD t default := by
      show u.store.getD t default = s.store.getD t default
      rw [hstore]
    have hund : u.matchers.Nodup := by
      rw [hmatch]
      exact hnd.sublist (List.erase_sublist t s.matchers)
    simp only [ownedIds] at hsub hond ⊢
    rw [List.nodup_cons] at hond
    have hfoldst := (removeFold_rstep G (nodeOf u t).children u).1
    have halias_eq : nodeOf (List.foldl
        (fun st c => removeRouteFuel G (.byRef c) st) u
        (nodeOf u t).children) t = nodeOf u t := by
      show (List.foldl (fun st c => removeRouteFuel G (.byRef c) st) u
        (nodeOf u t).children).store.getD t default
        = u.store.getD t default
      rw [hfoldst]
    rw [halias_eq, ← List.foldl_append, hnode]
    have hsub2 : ∀ z ∈ catMap (ownedIds u.store G)
        ((s.store.getD t default).children
          ++ (s.store.getD t default).aliasList), z ∈ u.matchers := by
      intro z hz
      rw [hstore] at hz
      rw [hmatch, hnd.mem_erase_iff]
      refine ⟨?_, hsub z (List.mem_cons_of_mem _ hz)⟩
      intro he
      exact hond.1 (he ▸ hz)
    have hond2 : (catMap (ownedIds u.store G)
        ((s.store.getD t default).children
          ++ (s.store.getD t default).aliasList)).Nodup := by
      rw [hstore]
      exact hond.2
    have hchar := removeFold_char G (fun id2 s2 => removeRef_char G id2 s2)
      ((s.store.getD t default).children
        ++ (s.store.getD t default).aliasList) u hund hsub2 hond2 y
    rw [hchar, hstore, hmatch, hnd.mem_erase_iff]
    simp only [List.mem_cons]
    tauto
  unfold removeRoute
  rw [hG]
  unfold removeRouteFuel
  rw [hname]
  exact key ⟨s.store, spliceOutJs s.matchers t, mapDelete s.matcherMap n,
    s.tick⟩ rfl hsp x

/-- After a by-name removal of a present name, the name index no longer
holds that name. -/
theorem removeByName_mapGet (s : RState) (n : String) (t : Nat)
    (hname : mapGet s.matcherMap n = some t) (hlen : 0 < s.store.length) :
    mapGet (removeRoute (.byName n) s).matcherMap n = none := by
  obtain ⟨G, hG⟩ : ∃ G, s.store.length = G + 1 :=
    ⟨s.store.length - 1, by omega⟩
  unfold removeRoute
  rw [hG]
  unfold removeRouteFuel
  rw [hname]
  dsimp only
  rw [mapGet, Option.map_eq_none', List.find?_eq_none]
  intro pr hpr
  have h2 := (removeFold_rstep G _ _).2.2.2.subset hpr
  have h3 := (removeFold_rstep G _ _).2.2.2.subset h2
  have h4 : pr ∈ mapDelete s.matcherMap n := h3
  have h5 := (List.mem_filter.mp h4).2
  simp only [decide_eq_true_eq, beq_iff_eq] at h5
  simpa using h5

/-- Extending the arena does not change the owned closure of an in-range
matcher whose closure is in range. -/
theorem ownedIds_append (st ex : List MNode) :
    ∀ (F id : Nat), (∀ x ∈ ownedIds st F id, x < st.length) →
      ownedIds (st ++ ex) F id = ownedIds st F id
  | 0, _ => fun _ => rfl
  | F+1, id => fun h => by
    have hid : id < st.length := h id (by simp [ownedIds])
    have hgd : (st ++ ex).getD id default = st.getD id default := by
      rw [List.getD_eq_getElem?_getD, List.getD_eq_getElem?_getD,
        List.getElem?_append_left hid]
    simp only [ownedIds]
    rw [hgd]
    congr 1
    have hc : ∀ (l : List Nat), (∀ x ∈ catMap (ownedIds st F) l, x < st.length) →
        catMap (ownedIds (st ++ ex) F) l = catMap (ownedIds st F) l := by
      intro l
      induction l with
      | nil => intro _; rfl
      | cons c cs ih =>
        intro hl
        simp only [catMap]
        rw [ownedIds_append st ex F c (fun x hx => hl x (by
            simp only [catMap, List.mem_append]
            exact Or.inl hx)),
          ih (fun x hx => hl x (by
            simp only [catMap, List.mem_append]
            exact Or.inr hx))]
    exact hc _ (fun x hx => h x (List.mem_cons_of_mem _ hx))

end Reg

namespace Reg

/-- The arena node allocated for a flat named record added at the root. -/
def mkNode (p n : String) : MNode :=
  ⟨p, some n, computeScore p, computeKeys p, none, [], [], none, 0⟩

theorem set_concat (l : List MNode) (x y : MNode) :
    (l ++ [x]).set l.length y = l ++ [y] := by
  rw [List.set_append_right _ _ (Nat.le_refl _)]
  simp

/-- A freshly appended root node with no alias source is canonical. -/
theorem isAlias_concat_fresh (st : List MNode) (x : MNode)
    (h1 : x.aliasOf = none) (h2 : x.parent = none) :
    isAliasRecord (st ++ [x]) st.length = false := by
  unfold isAliasRecord isAliasRecordFuel
  rw [List.getElem?_concat_length]
  simp [h1, h2]

theorem insertMatcher_matchers (u : RState) (id : Nat) :
    (insertMatcher u id).matchers = (rankState u id).matchers := by
  rw [insertMatcher_eq]
  cases (nodeOf (rankState u id) id).name with
  | none => rfl
  | some n => split_ifs <;> rfl

theorem mapGet_mapSet (m : List (String × Nat)) (n : String) (id : Nat) :
    mapGet (mapSet m n id) n = some id := by
  simp [mapGet, mapSet, List.find?]

/-- Inserting a named canonical matcher indexes it under its name. -/
theorem insertMatcher_mapGet_canonical (u : RState) (id : Nat) (n : String)
    (hn : (nodeOf (rankState u id) id).name = some n)
    (hal : isAliasRecord (rankState u id).store id = false) :
    mapGet (insertMatcher u id).matcherMap n = some id := by
  rw [insertMatcher_eq, hn]
  dsimp only
  rw [if_neg (by rw [hal]; exact fun hh => Bool.noConfusion hh)]
  exact mapGet_mapSet _ n id

end Reg

namespace Reg

/-- Unfolding `addRoute` on a flat named root record: creation, named-route
replacement, then rank insertion of the fresh matcher. -/
theorem addFlat_eq (s : RState) (n p : String) :
    addRoute (.mk p (some n) [] .nil) none s
      = insertMatcher (removeRoute (.byName n)
          { s with store := s.store ++ [mkNode p n] }) s.store.length := by
  unfold addRoute addRouteAux
  rw [show rawSize (Raw.mk p (some n) [] RawList.nil) = 1 from rfl]
  unfold addRouteAuxF
  dsimp only [List.map_nil, List.foldl_cons, List.foldl_nil]
  unfold addRouteEntry
  dsimp only [entryPath, entryAliasOf]
  unfold createRouteRecordMatcher
  dsimp only
  unfold entryStep2
  dsimp only [Option.getD]
  rw [if_neg (fun hh : s.store.length ≠ s.store.length => hh rfl)]
  rw [if_pos ⟨rfl, fun hh => by
    rw [isAlias_concat_fresh s.store
      ⟨p, some n, computeScore p, computeKeys p, none, [], [], none, 0⟩
      rfl rfl] at hh
    exact Bool.noConfusion hh⟩]
  dsimp only [RawList.toList, List.enum_nil, List.foldl_nil]
  rfl

end Reg

namespace Reg

/-- Adding a flat record whose name is already registered: the prior
registration's owned closure is removed, and the name now maps to the
freshly allocated matcher. -/
theorem addFlat_trace (s : RState) (n p : String) (old : Nat)
    (hnd : s.matchers.Nodup)
    (hbound : ∀ m ∈ s.matchers, m < s.store.length)
    (hname : mapGet s.matcherMap n = some old)
    (hsub : ∀ x ∈ ownedIds s.store (s.store.length + 1) old, x ∈ s.matchers)
    (hond : (ownedIds s.store (s.store.length + 1) old).Nodup) :
    mapGet (addRoute (.mk p (some n) [] .nil) none s).matcherMap n
      = some s.store.length ∧
    (∀ x ∈ ownedIds s.store (s.store.length + 1) old,
      x ∉ (addRoute (.mk p (some n) [] .nil) none s).matchers) := by
  rw [addFlat_eq]
  have hclosb : ∀ x ∈ ownedIds s.store (s.store.length + 1) old,
      x < s.store.length := fun x hx => hbound x (hsub x hx)
  have hlenApp : (s.store ++ [mkNode p n]).length = s.store.length + 1 := by
    simp
  have hclos_eq : ownedIds (s.store ++ [mkNode p n]) (s.store.length + 1) old
      = ownedIds s.store (s.store.length + 1) old :=
    ownedIds_append s.store [mkNode p n] (s.store.length + 1) old hclosb
  have hchar := removeByName_char { s with store := s.store ++ [mkNode p n] }
    n old hnd hname (by
      show 0 < (s.store ++ [mkNode p n]).length
      simp)
    (by
      intro x hx
      rw [show ({ s with store := s.store ++ [mkNode p n] } : RState).store
        = s.store ++ [mkNode p n] from rfl, hlenApp, hclos_eq] at hx
      exact hsub x hx)
    (by
      rw [show ({ s with store := s.store ++ [mkNode p n] } : RState).store
        = s.store ++ [mkNode p n] from rfl, hlenApp, hclos_eq]
      exact hond)
  have hscstore : (removeRoute (.byName n)
      { s with store := s.store ++ [mkNode p n] }).store
      = s.store ++ [mkNode p n] :=
    (removeRoute_rstep (.byName n) _).1
  have hlensc : (removeRoute (.byName n)
      { s with store := s.store ++ [mkNode p n] }).store.length
      = s.store.length + 1 := by
    rw [hscstore]
    simp
  have hnodesc : nodeOf (removeRoute (.byName n)
      { s with store := s.store ++ [mkNode p n] }) s.store.length
      = mkNode p n := by
    rw [nodeOf_getD, hscstore, List.getElem?_concat_length]
    rfl
  have hrknode : nodeOf (rankState (removeRoute (.byName n)
      { s with store := s.store ++ [mkNode p n] }) s.store.length)
      s.store.length
      = { mkNode p n with seq := (removeRoute (.byName n)
          { s with store := s.store ++ [mkNode p n] }).tick } := by
    rw [nodeOf_getD]
    rw [show (rankState (removeRoute (.byName n)
      { s with store := s.store ++ [mkNode p n] }) s.store.length).store
      = (removeRoute (.byName n)
          { s with store := s.store ++ [mkNode p n] }).store.set s.store.length
        { nodeOf (removeRoute (.byName n)
            { s with store := s.store ++ [mkNode p n] }) s.store.length
          with seq := (removeRoute (.byName n)
            { s with store := s.store ++ [mkNode p n] }).tick } from rfl]
    rw [List.getElem?_set_self (by omega)]
    rw [hnodesc]
    rfl
  have hrkname : (nodeOf (rankState (removeRoute (.byName n)
      { s with store := s.store ++ [mkNode p n] }) s.store.length)
      s.store.length).name = some n := by
    rw [hrknode]
    rfl
  have hrkalias : isAliasRecord (rankState (removeRoute (.byName n)
      { s with store := s.store ++ [mkNode p n] }) s.store.length).store
      s.store.length = false := by
    rw [show (rankState (removeRoute (.byName n)
      { s with store := s.store ++ [mkNode p n] }) s.store.length).store
      = (removeRoute (.byName n)
          { s with store := s.store ++ [mkNode p n] }).store.set s.store.length
        { nodeOf (removeRoute (.byName n)
            { s with store := s.store ++ [mkNode p n] }) s.store.length
          with seq := (removeRoute (.byName n)
            { s with store := s.store ++ [mkNode p n] }).tick } from rfl]
    rw [hnodesc, hscstore, set_concat]
    exact isAlias_concat_fresh s.store _ rfl rfl
  constructor
  · exact insertMatcher_mapGet_canonical _ s.store.length n hrkname hrkalias
  · intro x hx hmem
    rw [insertMatcher_matchers] at hmem
    have hx_lt : x < s.store.length := hclosb x hx
    rcases (insertRanked_mem _ s.store.length x _).mp hmem with rfl | hmem2
    · omega
    · have := (hchar x).mp hmem2
      rw [show ({ s with store := s.store ++ [mkNode p n] } : RState).store
        = s.store ++ [mkNode p n] from rfl, hlenApp, hclos_eq] at this
      exact this.2 hx

end Reg

namespace Reg

/-- A registry with a named parent `/p` (name `P`) owning a named child `c`
(name `C`) that carries an alias `d`. -/
def c9regA : RState :=
  runROps [.add none (.mk "/p" (some "P") []
    (.cons (.mk "c" (some "C") ["d"] .nil) .nil))]

/-- A registry with a single named route `T` at `/a`. -/
def c9regB : RState := runROps [.add none (.mk "/a" (some "T") [] .nil)]

/-- C9: removeRoute by a registered name deletes the target matcher from
both the ranked sequence and the name index and cascades over everything
it owns (children and alias matchers, recursively — the owned closure),
provided that closure is present and duplicate-free; and adding a route
whose declared name is already registered first removes the prior
registration's owned closure from the ranked sequence, after which the
name maps to the freshly allocated matcher — the last registration with a
given name wins. -/
theorem c9_name_replacement_and_cascading_removal :
    (∀ (s : RState) (n : String) (t : Nat), s.matchers.Nodup →
      mapGet s.matcherMap n = some t → 0 < s.store.length →
      (∀ x ∈ ownedIds s.store s.store.length t, x ∈ s.matchers) →
      (ownedIds s.store s.store.length t).Nodup →
      ((∀ x ∈ ownedIds s.store s.store.length t,
          x ∉ (removeRoute (.byName n) s).matchers) ∧
        mapGet (removeRoute (.byName n) s).matcherMap n = none)) ∧
    (∀ (s : RState) (n p : String) (old : Nat), s.matchers.Nodup →
      (∀ m ∈ s.matchers, m < s.store.length) →
      mapGet s.matcherMap n = some old →
      (∀ x ∈ ownedIds s.store (s.store.length + 1) old, x ∈ s.matchers) →
      (ownedIds s.store (s.store.length + 1) old).Nodup →
      (mapGet (addRoute (.mk p (some n) [] .nil) none s).matcherMap n
          = some s.store.length ∧
        ∀ x ∈ ownedIds s.store (s.store.length + 1) old,
          x ∉ (addRoute (.mk p (some n) [] .nil) none s).matchers)) := by
  constructor
  · intro s n t hnd hname hlen hsub hond
    refine ⟨?_, removeByName_mapGet s n t hname hlen⟩
    intro x hx hmem
    exact ((removeByName_char s n t hnd hname hlen hsub hond x).mp hmem).2 hx
  · intro s n p old hnd hbound hname hsub hond
    exact addFlat_trace s n p old hnd hbound hname hsub hond

theorem c9_name_replacement_and_cascading_removal_witness :
    ((∀ x ∈ ownedIds c9regA.store c9regA.store.length 0,
        x ∉ (removeRoute (.byName "P") c9regA).matchers) ∧
      mapGet (removeRoute (.byName "P") c9regA).matcherMap "P" = none) ∧
    (mapGet (addRoute (.mk "/b" (some "T") [] .nil) none c9regB).matcherMap "T"
        = some c9regB.store.length ∧
      ∀ x ∈ ownedIds c9regB.store (c9regB.store.length + 1) 0,
        x ∉ (addRoute (.mk "/b" (some "T") [] .nil) none c9regB).matchers) :=
  ⟨c9_name_replacement_and_cascading_removal.1 c9regA "P" 0 (by decide)
      (by decide) (by decide) (by decide) (by decide),
    c9_name_replacement_and_cascading_removal.2 c9regB "T" "/b" 0 (by decide)
      (by decide) (by decide) (by decide) (by decide)⟩

end Reg
